import Mathlib

/-!
# Gitartha-Engine: ingestion loader and query store

A shallow embedding of `internal/ingest/loader.go` (`Loader.LoadCSV`, `parseInt`)
and of `internal/data/store.go` (`Store.SearchVerses`), followed by the
properties established about them.

Conventions of the embedding.

* The relational store is a pair of row lists (`DB`).  The timestamp columns
  `created_at` and `updated_at` are left out.
* A transaction works on a private copy of the committed rows; `Commit`
  publishes the copy, and nothing else changes the committed rows.
* Everything the environment decides is a field of `Env`: whether `BeginTx`,
  the k-th `ExecContext` call or `Commit` fails, the identifiers produced by
  `uuid.New`, and the order in which `range` walks a Go map.
* The CSV file is given as its sequence of logical lines, already split into
  fields (`Line`); `encoding/csv` is modelled at the level of `Reader.Read`.
* Go `int` values are `Int`; the only place where the 64-bit range matters is
  `strconv.Atoi`, which rejects text outside it.
-/

namespace Gitartha

/-! ## Data model (`internal/data/store.go`) -/

/-- Chapter row, as in `data.Chapter` and the `chapters` table. -/
structure Chapter where
  ID : Int
  NameEN : String
  NameHI : String
  SummaryEN : String
  SummaryHI : String
  VerseCount : Int
deriving DecidableEq

/-- Verse row, as in `data.Verse` and the `verses` table. -/
structure Verse where
  ID : String
  ChapterID : Int
  VerseNumber : Int
  Sanskrit : String
  Transliteration : String
  English : String
  Hindi : String
deriving DecidableEq

/-- Rows of the two tables. -/
structure DB where
  chapters : List Chapter
  verses : List Verse
deriving DecidableEq

/-- Equality of Go results `(value, error)` is decidable. -/
instance exceptDecidableEq {ε α : Type} [DecidableEq ε] [DecidableEq α] :
    DecidableEq (Except ε α)
  | .ok a, .ok b =>
    if h : a = b then isTrue (congrArg Except.ok h)
    else isFalse (fun h1 => h (Except.ok.inj h1))
  | .error a, .error b =>
    if h : a = b then isTrue (congrArg Except.error h)
    else isFalse (fun h1 => h (Except.error.inj h1))
  | .ok _, .error _ => isFalse (fun h => Except.noConfusion h)
  | .error _, .ok _ => isFalse (fun h => Except.noConfusion h)

/-! ## Go maps -/

/-- Lookup `m[k]` in a Go map kept as an association list; an absent key
yields the zero value. -/
def mapGet {κ ν : Type} [DecidableEq κ] (zero : ν) : List (κ × ν) → κ → ν
  | [], _ => zero
  | (k', v) :: rest, k => if k' = k then v else mapGet zero rest k

/-- Assignment `m[k] = v`: replaces the entry of `k` or adds one. -/
def mapSet {κ ν : Type} [DecidableEq κ] : List (κ × ν) → κ → ν → List (κ × ν)
  | [], k, v => [(k, v)]
  | (k', v') :: rest, k, v =>
    if k' = k then (k, v) :: rest else (k', v') :: mapSet rest k v

/-! ## `strconv.Atoi` (Go standard library) -/

/-- Errors of `strconv.Atoi`. -/
inductive NumError
  | ErrSyntax
  | ErrRange
deriving DecidableEq

/-- Value of a decimal digit, `none` for any other character. -/
def digitVal (c : Char) : Option Nat :=
  if 48 ≤ c.toNat ∧ c.toNat ≤ 57 then some (c.toNat - 48) else none

/-- The digit loop of `strconv.ParseUint` for base 10 and 64 bits, from the
value `n` read so far: a character that is not a digit ends it with
`ErrSyntax`; a value that would pass `2^64 - 1` ends it with `ErrRange` at
that digit, before the characters after it are looked at. -/
def parseDigits : List Char → Nat → Except NumError Nat
  | [], n => .ok n
  | c :: cs, n =>
    match digitVal c with
    | none => .error .ErrSyntax
    | some d =>
      if n ≥ (2 ^ 64 - 1) / 10 + 1 then .error .ErrRange
      else if n * 10 + d > 2 ^ 64 - 1 then .error .ErrRange
      else parseDigits cs (n * 10 + d)

/-- Sign and magnitude to a Go `int` (64 bits), or `ErrRange`. -/
def signedInRange (neg : Bool) (n : Nat) : Except NumError Int :=
  if neg then
    if n ≤ 2 ^ 63 then .ok (-(n : Int)) else .error .ErrRange
  else
    if n < 2 ^ 63 then .ok (n : Int) else .error .ErrRange

/-- Base-10 `strconv.Atoi`: an optional sign `+` or `-`, then one or more
decimal digits, the value within the 64-bit `int` range.  The error is
`ErrSyntax` for an empty text, a bare sign or a non-digit met before any
overflow, and `ErrRange` for a value out of range. -/
def Atoi (s : String) : Except NumError Int :=
  match s.toList with
  | [] => .error .ErrSyntax
  | c :: cs =>
    let neg : Bool := c = '-'
    let ds : List Char := if c = '-' ∨ c = '+' then cs else c :: cs
    match ds with
    | [] => .error .ErrSyntax
    | d :: ds' =>
      match parseDigits (d :: ds') 0 with
      | .error err => .error err
      | .ok n => signedInRange neg n

/-- The loader's `parseInt` (loader.go:125-131): `strconv.Atoi` with the error
passed through and nothing else checked. -/
def parseInt (value : String) : Except NumError Int :=
  match Atoi value with
  | .error err => .error err
  | .ok n => .ok n

/-- The router's `parsePositiveInt` (router.go:178-187): `strconv.Atoi`
followed by the rejection of `n <= 0`. -/
def parsePositiveInt (value : String) : Option Int :=
  match Atoi value with
  | .error _ => none
  | .ok n => if n ≤ 0 then none else some n

/-! ## `encoding/csv` (Go standard library) -/

/-- One logical line of the file: its fields after `TrimLeadingSpace`
(`fields []` is an empty line), or a line the CSV grammar rejects. -/
inductive Line
  | fields (fs : List String)
  | bad
deriving DecidableEq

/-- Errors of `csv.Reader.Read` other than `io.EOF`. -/
inductive CsvError
  | ErrQuote
  | ErrFieldCount
deriving DecidableEq

/-- The results of the successive calls of `Reader.Read` until `io.EOF`, for a
reader created by `csv.NewReader` whose `FieldsPerRecord` currently is `fpr`.
Empty lines are skipped.  With `FieldsPerRecord = 0` the first record sets it
to its own length; afterwards a record of any other length is returned
together with `ErrFieldCount`. -/
def readAll : Nat → List Line → List (Except CsvError (List String))
  | _, [] => []
  | fpr, Line.bad :: rest => .error .ErrQuote :: readAll fpr rest
  | fpr, Line.fields [] :: rest => readAll fpr rest
  | fpr, Line.fields (f :: fs) :: rest =>
    if fpr = 0 then .ok (f :: fs) :: readAll (fs.length + 1) rest
    else if fs.length + 1 = fpr then .ok (f :: fs) :: readAll fpr rest
    else .error .ErrFieldCount :: readAll fpr rest

/-! ## The loader (`internal/ingest/loader.go`) -/

/-- Environment of one `LoadCSV` call. -/
structure Env where
  /-- `l.db.BeginTx` returns an error. -/
  beginFails : Bool
  /-- The k-th `tx.ExecContext` call of the pass (from 0) returns an error. -/
  execFails : Nat → Bool
  /-- `tx.Commit` returns an error. -/
  commitFails : Bool
  /-- The k-th identifier produced by `uuid.New().String()` (from 0). -/
  uuid : Nat → String
  /-- Order in which `range chapterVerseCounts` visits the map. -/
  rangeOrder : List (Int × Int) → List (Int × Int)
  rangeOrder_perm : ∀ m, (rangeOrder m).Perm m

/-- The errors `LoadCSV` returns, one per `fmt.Errorf` site. -/
inductive LoadError
  | openCSV
  | readHeader
  | beginTx
  | readRecord
  | parseChapter
  | parseVerse
  | insertChapter (chapterNum : Int)
  | insertVerse (chapterNum verseNum : Int)
  | updateChapter (chapterID : Int)
  | commitTx
deriving DecidableEq

/-- How a call ends: `nil`, an error, or a run-time panic of an index
expression `record[i]`. -/
inductive Return
  | nil
  | error (e : LoadError)
  | indexOutOfRange
deriving DecidableEq

/-- Calls made on the transaction handle. -/
inductive Event
  | execInsertChapter (id : Int) (name : String)
  | execInsertVerse (id : String) (chapterNum verseNum : Int)
      (sanskrit transliteration english hindi : String)
  | execUpdateChapter (count : Int) (chapterID : Int)
  | commit
  | rollback
deriving DecidableEq

/-- The values one record yields (loader.go:82-95). -/
structure Row where
  chapterNum : Int
  verseNum : Int
  sanskrit : String
  hindi : String
  english : String
  transliteration : String
deriving DecidableEq

/-- State of the pass while the transaction is open. -/
structure TxState where
  /-- Rows as seen inside the transaction. -/
  tx : DB
  chapterVerseCounts : List (Int × Int)
  /-- Number of `ExecContext` calls made so far. -/
  execs : Nat
  /-- Number of identifiers drawn so far. -/
  uuids : Nat
  log : List Event
deriving DecidableEq

/-- What a call of `LoadCSV` leaves behind. -/
structure Outcome where
  ret : Return
  /-- Committed rows after the call. -/
  committed : DB
  /-- The transaction begun by the call is neither committed nor rolled back. -/
  txOpen : Bool
  log : List Event
deriving DecidableEq

/-- The six column names the loader looks up. -/
def requiredColumns : List String :=
  ["chapter", "verse", "sanskrit", "transliteration", "english", "hindi"]

/-- Loop of loader.go:43-46, `columnIndex[col] = idx` for each header field,
started at index `idx` with the map `m`. -/
def fillColumnIndex : List String → Nat → List (String × Nat) → List (String × Nat)
  | [], _, m => m
  | col :: cols, idx, m => fillColumnIndex cols (idx + 1) (mapSet m col idx)

/-- The map `columnIndex` built from the header. -/
def buildColumnIndex (header : List String) : List (String × Nat) :=
  fillColumnIndex header 0 []

/-- The expression `record[columnIndex[name]]`; `none` is the panic. -/
def field (columnIndex : List (String × Nat)) (record : List String) (name : String) :
    Option String :=
  record[mapGet 0 columnIndex name]?

/-- Result of the parsing half of the loop body. -/
inductive Parsed
  | indexOutOfRange
  | fail (e : LoadError)
  | row (r : Row)
deriving DecidableEq

/-- Lines 82-95 of the loop body: the two `parseInt` calls and the four text
lookups, in source order. -/
def parseRecord (columnIndex : List (String × Nat)) (record : List String) : Parsed :=
  match field columnIndex record "chapter" with
  | none => .indexOutOfRange
  | some chapterField =>
    match parseInt chapterField with
    | .error _ => .fail .parseChapter
    | .ok chapterNum =>
      match field columnIndex record "verse" with
      | none => .indexOutOfRange
      | some verseField =>
        match parseInt verseField with
        | .error _ => .fail .parseVerse
        | .ok verseNum =>
          match field columnIndex record "sanskrit" with
          | none => .indexOutOfRange
          | some sanskrit =>
            match field columnIndex record "hindi" with
            | none => .indexOutOfRange
            | some hindi =>
              match field columnIndex record "english" with
              | none => .indexOutOfRange
              | some english =>
                match field columnIndex record "transliteration" with
                | none => .indexOutOfRange
                | some transliteration =>
                  .row ⟨chapterNum, verseNum, sanskrit, hindi, english, transliteration⟩

/-- Effect of `insertChapterStmt` (loader.go:58-60): a new chapter row with
empty names and summaries and `verse_count = 0`, unless the id exists
(`ON CONFLICT (id) DO NOTHING`). -/
def insertChapterStmt (db : DB) (id : Int) (name : String) : DB :=
  if db.chapters.any (fun ch => ch.ID = id) then db
  else ⟨db.chapters ++ [⟨id, name, "", "", "", 0⟩], db.verses⟩

/-- Natural key test of the `verses` table. -/
def hasKey (chapterNum verseNum : Int) (v : Verse) : Bool :=
  v.ChapterID = chapterNum ∧ v.VerseNumber = verseNum

/-- The `DO UPDATE SET` clause of `insertVerseStmt`: the four text columns
take the proposed values, the other columns stay. -/
def setTexts (v : Verse) (sanskrit transliteration english hindi : String) : Verse :=
  ⟨v.ID, v.ChapterID, v.VerseNumber, sanskrit, transliteration, english, hindi⟩

/-- Effect of `insertVerseStmt` (loader.go:62-69): on a conflict of
`(chapter_id, verse_number)` the stored row gets the new texts, otherwise
the proposed row is added. -/
def insertVerseStmt (db : DB) (id : String) (chapterNum verseNum : Int)
    (sanskrit transliteration english hindi : String) : DB :=
  if db.verses.any (hasKey chapterNum verseNum) then
    ⟨db.chapters, db.verses.map (fun v =>
      if hasKey chapterNum verseNum v then
        setTexts v sanskrit transliteration english hindi
      else v)⟩
  else
    ⟨db.chapters,
     db.verses ++ [⟨id, chapterNum, verseNum, sanskrit, transliteration, english, hindi⟩]⟩

/-- Effect of `updateChapterStmt` (loader.go:109):
`UPDATE chapters SET verse_count = $1 WHERE id = $3`. -/
def updateChapterStmt (db : DB) (count : Int) (chapterID : Int) : DB :=
  ⟨db.chapters.map (fun ch =>
      if ch.ID = chapterID then
        ⟨ch.ID, ch.NameEN, ch.NameHI, ch.SummaryEN, ch.SummaryHI, count⟩
      else ch),
   db.verses⟩

/-- One `tx.ExecContext` call: it is logged and counted; unless the
environment makes it fail, its effect is applied inside the transaction.
The flag tells whether the call returned an error. -/
def ExecContext (env : Env) (st : TxState) (ev : Event) (effect : DB → DB) :
    Bool × TxState :=
  if env.execFails st.execs then
    (true, ⟨st.tx, st.chapterVerseCounts, st.execs + 1, st.uuids, st.log ++ [ev]⟩)
  else
    (false, ⟨effect st.tx, st.chapterVerseCounts, st.execs + 1, st.uuids, st.log ++ [ev]⟩)

/-- The text `fmt.Sprintf("Chapter %d", chapterNum)`. -/
def chapterName (chapterNum : Int) : String :=
  "Chapter " ++ toString chapterNum

/-- Lines 97-106 of the loop body: chapter insert, fresh identifier, verse
upsert, counter increment. -/
def writeRow (env : Env) (r : Row) (st : TxState) : Option LoadError × TxState :=
  match ExecContext env st (.execInsertChapter r.chapterNum (chapterName r.chapterNum))
      (fun db => insertChapterStmt db r.chapterNum (chapterName r.chapterNum)) with
  | (true, st1) => (some (.insertChapter r.chapterNum), st1)
  | (false, st1) =>
    let verseID := env.uuid st1.uuids
    let st2 : TxState := ⟨st1.tx, st1.chapterVerseCounts, st1.execs, st1.uuids + 1, st1.log⟩
    match ExecContext env st2
        (.execInsertVerse verseID r.chapterNum r.verseNum r.sanskrit r.transliteration
          r.english r.hindi)
        (fun db => insertVerseStmt db verseID r.chapterNum r.verseNum r.sanskrit
          r.transliteration r.english r.hindi) with
    | (true, st3) => (some (.insertVerse r.chapterNum r.verseNum), st3)
    | (false, st3) =>
      (none, ⟨st3.tx,
              mapSet st3.chapterVerseCounts r.chapterNum
                (mapGet 0 st3.chapterVerseCounts r.chapterNum + 1),
              st3.execs, st3.uuids, st3.log⟩)

/-- The `for` loop of loader.go:73-107 over the results of the remaining
`reader.Read` calls.  `Return.nil` means the loop was left by `break` at
`io.EOF`; any other value is what `LoadCSV` returns from inside the loop. -/
def loopRecords (env : Env) (columnIndex : List (String × Nat)) :
    List (Except CsvError (List String)) → TxState → Return × TxState
  | [], st => (.nil, st)
  | .error _ :: _, st => (.error .readRecord, st)
  | .ok record :: rest, st =>
    match parseRecord columnIndex record with
    | .indexOutOfRange => (.indexOutOfRange, st)
    | .fail e => (.error e, st)
    | .row r =>
      match writeRow env r st with
      | (some e, st1) => (.error e, st1)
      | (none, st1) => loopRecords env columnIndex rest st1

/-- The loop of loader.go:112-116 over the entries of `chapterVerseCounts`,
in the order given. -/
def updateCounts (env : Env) : List (Int × Int) → TxState → Return × TxState
  | [], st => (.nil, st)
  | (chapterID, count) :: rest, st =>
    match ExecContext env st (.execUpdateChapter count chapterID)
        (fun db => updateChapterStmt db count chapterID) with
    | (true, st1) => (.error (.updateChapter chapterID), st1)
    | (false, st1) => updateCounts env rest st1

/-- The call `tx.Commit()` and the two returns after it (loader.go:118-122).
A failed commit publishes nothing; either way the transaction is over. -/
def commitTx (env : Env) (db : DB) (st : TxState) : Outcome :=
  if env.commitFails then ⟨.error .commitTx, db, false, st.log ++ [.commit]⟩
  else ⟨.nil, st.tx, false, st.log ++ [.commit]⟩

/-- Body of `LoadCSV` from the creation of `chapterVerseCounts` to the final
return (loader.go:71-122), without the deferred call. -/
def runTx (env : Env) (columnIndex : List (String × Nat))
    (reads : List (Except CsvError (List String))) (db : DB) : Outcome :=
  match loopRecords env columnIndex reads ⟨db, [], 0, 0, []⟩ with
  | (.nil, st) =>
    match updateCounts env (env.rangeOrder st.chapterVerseCounts) st with
    | (.nil, st1) => commitTx env db st1
    | (ret, st1) => ⟨ret, db, true, st1.log⟩
  | (ret, st) => ⟨ret, db, true, st.log⟩

/-- The deferred closure of loader.go:52-56.  It tests the variable `err` of
the function scope, the one assigned by `tx, err := l.db.BeginTx(ctx, nil)`,
and calls `tx.Rollback()` when that variable is not nil. -/
def deferredRollback (err : Option LoadError) (o : Outcome) : Outcome :=
  match err with
  | some _ => ⟨o.ret, o.committed, false, o.log ++ [.rollback]⟩
  | none => o

/-- `Loader.LoadCSV` (loader.go:28-123).  `file` is `none` when `os.Open`
fails, otherwise the lines of the file; `db` holds the committed rows before
the call.

After `BeginTx` has succeeded the function-scope variable `err` is nil.  No
later statement assigns it: `record, err := reader.Read()` inside the `for`
block declares a new `err` for the loop body, the `if _, err := ...` and
`if err := tx.Commit()` statements declare their own, and every `return`
hands its error to the unnamed result.  The deferred closure therefore
receives the value `none`. -/
def LoadCSV (env : Env) (db : DB) (file : Option (List Line)) : Outcome :=
  match file with
  | none => ⟨.error .openCSV, db, false, []⟩
  | some lines =>
    match readAll 0 lines with
    | [] => ⟨.error .readHeader, db, false, []⟩
    | .error _ :: _ => ⟨.error .readHeader, db, false, []⟩
    | .ok header :: reads =>
      let columnIndex := buildColumnIndex header
      if env.beginFails then ⟨.error .beginTx, db, false, []⟩
      else
        let err : Option LoadError := none
        deferredRollback err (runTx env columnIndex reads db)

/-- An environment without failures: identifiers `u0`, `u1`, ... and map
iteration in insertion order. -/
def calmEnv : Env where
  beginFails := false
  execFails := fun _ => false
  commitFails := false
  uuid := fun k => "u" ++ toString k
  rangeOrder := fun m => m
  rangeOrder_perm := fun m => List.Perm.refl m

/-! ## The query store (`internal/data/store.go`) -/

/-- Elements of a `LIKE` pattern. -/
inductive LikeTok
  | anySeq
  | anyChar
  | lit (c : Char)
deriving DecidableEq

/-- Reading of a PostgreSQL `LIKE` pattern with the default escape character:
`%` stands for any sequence of characters, `_` for any one character, a
backslash makes the next character stand for itself, any other character
stands for itself.  A backslash at the very end escapes nothing (PostgreSQL
rejects such a pattern; see `endsInEscape`). -/
def likeTokens : List Char → List LikeTok
  | [] => []
  | c :: rest =>
    if c = '\\' then
      match rest with
      | [] => []
      | d :: rest1 => .lit d :: likeTokens rest1
    else if c = '%' then .anySeq :: likeTokens rest
    else if c = '_' then .anyChar :: likeTokens rest
    else .lit c :: likeTokens rest

/-- The pattern ends in a backslash that escapes nothing. -/
def endsInEscape : List Char → Bool
  | [] => false
  | c :: rest =>
    if c = '\\' then
      match rest with
      | [] => true
      | _ :: rest1 => endsInEscape rest1
    else endsInEscape rest

/-- The whole text matches the pattern elements. -/
def likeMatch : List LikeTok → List Char → Bool
  | [], t => t.isEmpty
  | .anySeq :: p, t => t.tails.any (fun rest => likeMatch p rest)
  | .anyChar :: _, [] => false
  | .anyChar :: p, _ :: t => likeMatch p t
  | .lit _ :: _, [] => false
  | .lit c :: p, x :: t => x = c && likeMatch p t

/-- Case folding used by `ILIKE`: the letters `A`-`Z` go to `a`-`z`. -/
def foldCase (s : String) : List Char :=
  s.toList.map Char.toLower

/-- The SQL predicate `text ILIKE pattern`: `LIKE` on the case-folded text
and pattern. -/
def ILIKE (text pattern : String) : Bool :=
  likeMatch (likeTokens (foldCase pattern)) (foldCase text)

/-- The order of `ORDER BY chapter_id, verse_number`. -/
def keyLE (a b : Verse) : Prop :=
  a.ChapterID < b.ChapterID ∨ (a.ChapterID = b.ChapterID ∧ a.VerseNumber ≤ b.VerseNumber)

instance keyLE_decidable : DecidableRel keyLE :=
  fun a b => inferInstanceAs (Decidable
    (a.ChapterID < b.ChapterID ∨ (a.ChapterID = b.ChapterID ∧ a.VerseNumber ≤ b.VerseNumber)))

/-- Ways a query of the store can fail (the three error returns of
`SearchVerses`). -/
inductive StoreFault
  | query
  | scan
  | iterate
deriving DecidableEq

/-- The limit `SearchVerses` passes to the store (store.go:121-125). -/
def effectiveLimit (limit : Int) : Int :=
  if limit ≤ 0 then 20
  else if limit > 100 then 100
  else limit

/-- The column chosen for the `WHERE` clause (store.go:127-130). -/
def searchColumn (lang : String) (v : Verse) : String :=
  if lang = "hi" then v.Hindi else v.English

/-- The statement of store.go:134-138 on the stored verses:
`WHERE column ILIKE $1 ORDER BY chapter_id, verse_number LIMIT $2`. -/
def selectVerses (verses : List Verse) (column : Verse → String) (pattern : String)
    (limit : Int) : List Verse :=
  ((verses.filter (fun v => ILIKE (column v) pattern)).insertionSort keyLE).take limit.toNat

/-- `Store.SearchVerses` (store.go:120-160) on the stored verses; `fault`
is the failure of the store during the query, if any. -/
def SearchVerses (fault : Option StoreFault) (verses : List Verse) (query lang : String)
    (limit : Int) : Except StoreFault (List Verse) :=
  let limit := effectiveLimit limit
  let pattern := "%" ++ query ++ "%"
  match fault with
  | some f => .error f
  | none => .ok (selectVerses verses (searchColumn lang) pattern limit)

/-- The query occurs in the text as a substring, upper and lower case of
`A`-`Z` not distinguished. -/
def containsFold (query text : String) : Prop :=
  List.IsInfix (foldCase query) (foldCase text)

instance containsFold_decidable (query text : String) : Decidable (containsFold query text) :=
  inferInstanceAs (Decidable (List.IsInfix (foldCase query) (foldCase text)))

/-- The characters with a special meaning in a `LIKE` pattern. -/
def likeSpecial (c : Char) : Prop :=
  c = '%' ∨ c = '_' ∨ c = '\\'

instance likeSpecial_decidable (c : Char) : Decidable (likeSpecial c) :=
  inferInstanceAs (Decidable (c = '%' ∨ c = '_' ∨ c = '\\'))

/-- The event is one of the two writes the loop body issues for the row. -/
def IsWriteOf (r : Row) (ev : Event) : Prop :=
  ev = Event.execInsertChapter r.chapterNum (chapterName r.chapterNum) ∨
    ∃ id, ev = Event.execInsertVerse id r.chapterNum r.verseNum r.sanskrit r.transliteration
      r.english r.hindi

/-- How the verse upsert for row `r` relates a stored verse to its successor:
identifier and natural key stay; under the row's key the four texts are the
row's, under any other key the verse is unchanged. -/
def UpsertedFrom (r : Row) (old new : Verse) : Prop :=
  new.ID = old.ID ∧ new.ChapterID = old.ChapterID ∧ new.VerseNumber = old.VerseNumber ∧
    (if hasKey r.chapterNum r.verseNum old then
      new.Sanskrit = r.sanskrit ∧ new.Transliteration = r.transliteration ∧
        new.English = r.english ∧ new.Hindi = r.hindi
    else new = old)

/-- A row for chapter 2, verse 5 with new texts. -/
def rowTwoFive : Row := ⟨2, 5, "S-new", "H-new", "E-new", "T-new"⟩

/-- State of a pass whose transaction sees chapter 2 with verses 4 and 5. -/
def stateTwoFive : TxState :=
  ⟨⟨[⟨2, "Chapter 2", "", "", "", 2⟩],
    [⟨"id-4", 2, 4, "S4", "T4", "E4", "H4"⟩, ⟨"id-5", 2, 5, "S5", "T5", "E5", "H5"⟩]⟩,
   [], 0, 0, []⟩

/-- The state `stateTwoFive` after the loop body has written `rowTwoFive`. -/
def stateTwoFiveAfter : TxState :=
  ⟨⟨[⟨2, "Chapter 2", "", "", "", 2⟩],
    [⟨"id-4", 2, 4, "S4", "T4", "E4", "H4"⟩,
     ⟨"id-5", 2, 5, "S-new", "T-new", "E-new", "H-new"⟩]⟩,
   [(2, 1)], 2, 1,
   [Event.execInsertChapter 2 "Chapter 2",
    Event.execInsertVerse "u0" 2 5 "S-new" "T-new" "E-new" "H-new"]⟩

/-- State after the loop body has written row `r` without a store error. -/
def applyRow (env : Env) (st : TxState) (r : Row) : TxState :=
  ⟨insertVerseStmt (insertChapterStmt st.tx r.chapterNum (chapterName r.chapterNum))
      (env.uuid st.uuids) r.chapterNum r.verseNum r.sanskrit r.transliteration
      r.english r.hindi,
   mapSet st.chapterVerseCounts r.chapterNum
      (mapGet 0 st.chapterVerseCounts r.chapterNum + 1),
   st.execs + 2, st.uuids + 1,
   st.log ++ [Event.execInsertChapter r.chapterNum (chapterName r.chapterNum),
      Event.execInsertVerse (env.uuid st.uuids) r.chapterNum r.verseNum r.sanskrit
        r.transliteration r.english r.hindi]⟩

/-- State after one `verse_count` update has run without a store error. -/
def applyUpdate (st : TxState) (entry : Int × Int) : TxState :=
  ⟨updateChapterStmt st.tx entry.2 entry.1, st.chapterVerseCounts, st.execs + 1, st.uuids,
   st.log ++ [Event.execUpdateChapter entry.2 entry.1]⟩

/-- The rows yielded by those read results that are records and parse. -/
def rowsOf (columnIndex : List (String × Nat)) :
    List (Except CsvError (List String)) → List Row
  | [] => []
  | .error _ :: rest => rowsOf columnIndex rest
  | .ok record :: rest =>
    match parseRecord columnIndex record with
    | .row r => r :: rowsOf columnIndex rest
    | _ => rowsOf columnIndex rest

/-- Every read result is a record that parses. -/
def AllParse (columnIndex : List (String × Nat))
    (reads : List (Except CsvError (List String))) : Prop :=
  ∀ rd ∈ reads, ∃ record r, rd = Except.ok record ∧
    parseRecord columnIndex record = Parsed.row r

/-- The environment lets `BeginTx`, every `ExecContext` and `Commit` succeed. -/
def Env.Calm (env : Env) : Prop :=
  env.beginFails = false ∧ (∀ k, env.execFails k = false) ∧ env.commitFails = false

/-- The rows of a file: those of the records after the header. -/
def sourceRows (file : Option (List Line)) : List Row :=
  match file with
  | none => []
  | some lines =>
    match readAll 0 lines with
    | .ok header :: reads => rowsOf (buildColumnIndex header) reads
    | _ => []

/-- The transaction state at the commit of a pass that wrote `rows`: the rows
applied in order, then one `verse_count` update per counter entry. -/
def passState (env : Env) (db : DB) (rows : List Row) : TxState :=
  (env.rangeOrder (rows.foldl (applyRow env) ⟨db, [], 0, 0, []⟩).chapterVerseCounts).foldl
    applyUpdate (rows.foldl (applyRow env) ⟨db, [], 0, 0, []⟩)

instance keyLE_total : IsTotal Verse keyLE :=
  ⟨fun a b => by unfold keyLE; omega⟩

instance keyLE_trans : IsTrans Verse keyLE :=
  ⟨fun a b c => by unfold keyLE; omega⟩

/-- The verse matches the query in the column of the language: the english
text for `en`, the hindi text for `hi`. -/
def matchesQuery (query lang : String) (v : Verse) : Prop :=
  (lang = "en" ∧ containsFold query v.English) ∨ (lang = "hi" ∧ containsFold query v.Hindi)

instance matchesQuery_decidable (query lang : String) (v : Verse) :
    Decidable (matchesQuery query lang v) :=
  inferInstanceAs (Decidable
    ((lang = "en" ∧ containsFold query v.English) ∨ (lang = "hi" ∧ containsFold query v.Hindi)))

/-- Natural key of a stored verse. -/
def vkey (v : Verse) : Int × Int := (v.ChapterID, v.VerseNumber)

/-- Natural key a row is written under. -/
def Row.key (r : Row) : Int × Int := (r.chapterNum, r.verseNum)

/-- The chapters table after `insertChapterStmt` for chapter `id`. -/
def addChapter (chs : List Chapter) (id : Int) : List Chapter :=
  if chs.any (fun ch => ch.ID = id) then chs
  else chs ++ [⟨id, chapterName id, "", "", "", 0⟩]

/-- A stored verse after the upsert of row `r`: new texts under the row's
key, unchanged otherwise. -/
def overwrite (r : Row) (v : Verse) : Verse :=
  if hasKey r.chapterNum r.verseNum v then
    setTexts v r.sanskrit r.transliteration r.english r.hindi
  else v

/-- The verses table after `insertVerseStmt` for row `r` with proposed
identifier `id`. -/
def upsertVerse (vs : List Verse) (id : String) (r : Row) : List Verse :=
  if vs.any (hasKey r.chapterNum r.verseNum) then vs.map (overwrite r)
  else vs ++ [⟨id, r.chapterNum, r.verseNum, r.sanskrit, r.transliteration, r.english,
    r.hindi⟩]

/-- The statement `chapterVerseCounts[chapterNum]++` for row `r`. -/
def countRow (m : List (Int × Int)) (r : Row) : List (Int × Int) :=
  mapSet m r.chapterNum (mapGet 0 m r.chapterNum + 1)

/-- A chapter after the `verse_count` updates for the entries of `m`. -/
def setCount (m : List (Int × Int)) (ch : Chapter) : Chapter :=
  if ch.ID ∈ m.map Prod.fst then
    ⟨ch.ID, ch.NameEN, ch.NameHI, ch.SummaryEN, ch.SummaryHI, mapGet 0 m ch.ID⟩
  else ch

/-- A stored verse after the upserts of all of `rows`, in order. -/
def lastTexts (rows : List Row) (v : Verse) : Verse :=
  rows.foldl (fun w r => overwrite r w) v

/-- Number of verse rows with `chapter_id = c`. -/
def verseRows (db : DB) (c : Int) : Nat :=
  (db.verses.filter (fun v => v.ChapterID = c)).length

/-- The invariant of the data model: every chapter's `verse_count` is the
number of its verse rows. -/
def Consistent (db : DB) : Prop :=
  ∀ ch ∈ db.chapters, ch.VerseCount = (verseRows db ch.ID : Int)

/-- The uniqueness constraint on `(chapter_id, verse_number)`. -/
def KeysUnique (db : DB) : Prop :=
  (db.verses.map vkey).Nodup

/-- The key list of the verses table after an upsert under key `k`. -/
def addKey (ks : List (Int × Int)) (k : Int × Int) : List (Int × Int) :=
  if k ∈ ks then ks else ks ++ [k]

instance Consistent_decidable (db : DB) : Decidable (Consistent db) :=
  inferInstanceAs (Decidable (∀ ch ∈ db.chapters, ch.VerseCount = (verseRows db ch.ID : Int)))

instance KeysUnique_decidable (db : DB) : Decidable (KeysUnique db) :=
  inferInstanceAs (Decidable ((db.verses.map vkey).Nodup))

/-! ## `Store.GetVerse` (`internal/data/store.go`) -/

/-- Error values that `database/sql` and its driver hand to `Row.Scan`: the
sentinel `sql.ErrNoRows`, any other failure (query error, cancelled context,
conversion error), or an error wrapping one of these. -/
inductive SqlError
  | ErrNoRows
  | failure (msg : String)
  | wrapped (msg : String) (inner : SqlError)
deriving DecidableEq

/-- The test `errors.Is(err, sql.ErrNoRows)` on a store error: the error is
the sentinel or wraps it. -/
def SqlError.isErrNoRows : SqlError → Bool
  | .ErrNoRows => true
  | .failure _ => false
  | .wrapped _ inner => inner.isErrNoRows

/-- Error values of package `data`: its sentinel `ErrNotFound`
(store.go:18), an error that comes from the store, or `fmt.Errorf` with
`%w` around one of these.  The store's own errors are a separate class: none
of them is the sentinel of package `data`. -/
inductive GoError
  | ErrNotFound
  | sql (e : SqlError)
  | wrap (msg : String) (inner : GoError)
deriving DecidableEq

/-- The test `errors.Is(err, ErrNotFound)`. -/
def GoError.isErrNotFound : GoError → Bool
  | .ErrNotFound => true
  | .sql _ => false
  | .wrap _ inner => inner.isErrNotFound

/-- The zero value `Verse{}`. -/
def zeroVerse : Verse := ⟨"", 0, 0, "", "", "", ""⟩

/-- `QueryRowContext` followed by `Scan` for the statement of
store.go:101-103, `WHERE chapter_id = $1 AND verse_number = $2`: the
store's failure if there is one, otherwise the first stored verse with the
key, otherwise `sql.ErrNoRows`. -/
def scanVerse (fault : Option SqlError) (verses : List Verse) (chapterID verseNumber : Int) :
    Except SqlError Verse :=
  match fault with
  | some err => .error err
  | none =>
    match verses.find? (hasKey chapterID verseNumber) with
    | some v => .ok v
    | none => .error .ErrNoRows

/-- `Store.GetVerse` (store.go:98-117) on the stored verses; `fault` is the
failure of the store during the query, if any.  The second component is the
returned error, `none` for nil. -/
def GetVerse (fault : Option SqlError) (verses : List Verse) (chapterID verseNumber : Int) :
    Verse × Option GoError :=
  match scanVerse fault verses chapterID verseNumber with
  | .error err =>
    if err.isErrNoRows then (zeroVerse, some .ErrNotFound)
    else (zeroVerse, some (.wrap "get verse" (.sql err)))
  | .ok verse => (verse, none)

/-! ## Sample inputs -/

/-- The header line with the six columns in the usual order. -/
def gitaHeader : Line :=
  .fields ["chapter", "verse", "sanskrit", "transliteration", "english", "hindi"]

/-- The store without rows. -/
def emptyDB : DB := ⟨[], []⟩

/-- File whose second data row has a chapter field that is not a number. -/
def fileBadSecondRow : List Line :=
  [gitaHeader,
   .fields ["1", "1", "S1", "T1", "E1", "H1"],
   .fields ["x", "2", "S2", "T2", "E2", "H2"]]

/-- File whose header has no `hindi` column. -/
def fileNoHindi : List Line :=
  [.fields ["chapter", "verse", "sanskrit", "transliteration", "english"],
   .fields ["1", "1", "S1", "T1", "E1"]]

/-- File whose only data row has chapter `0` and verse `-3`. -/
def fileZeroChapter : List Line :=
  [gitaHeader, .fields ["0", "-3", "S1", "T1", "E1", "H1"]]

/-- File whose second data row has three fields under a header of six. -/
def fileShortRow : List Line :=
  [gitaHeader,
   .fields ["1", "1", "S1", "T1", "E1", "H1"],
   .fields ["1", "2", "S2"]]

/-- Four stored verses, chapter 2 stored first. -/
def sampleVerses : List Verse :=
  [⟨"a", 2, 1, "", "", "Hello World", "namaste"⟩,
   ⟨"b", 1, 2, "", "", "abc", "h2"⟩,
   ⟨"c", 1, 1, "", "", "wORLD_x", "h1"⟩,
   ⟨"d", 1, 3, "", "", "", "h3"⟩]

/-- Store with chapter 1 holding verses 1 and 2 and chapter 2 holding verse 1,
every `verse_count` right. -/
def dbTwoChapters : DB :=
  ⟨[⟨1, "Chapter 1", "", "", "", 2⟩, ⟨2, "Chapter 2", "", "", "", 1⟩],
   [⟨"id-1-1", 1, 1, "S11", "T11", "E11", "H11"⟩,
    ⟨"id-1-2", 1, 2, "S12", "T12", "E12", "H12"⟩,
    ⟨"id-2-1", 2, 1, "S21", "T21", "E21", "H21"⟩]⟩

/-- File with the single data row chapter 1, verse 3. -/
def fileVerseThree : List Line :=
  [gitaHeader, .fields ["1", "3", "S13", "T13", "E13", "H13"]]

/-- File with the three verses of chapter 1, the second with new texts. -/
def fileChapterOne : List Line :=
  [gitaHeader,
   .fields ["1", "1", "S11", "T11", "E11", "H11"],
   .fields ["1", "2", "S12x", "T12x", "E12x", "H12x"],
   .fields ["1", "3", "S13", "T13", "E13", "H13"]]

/-- A second environment without failures; its identifiers are `w0`, `w1`, ... -/
def calmEnvW : Env where
  beginFails := false
  execFails := fun _ => false
  commitFails := false
  uuid := fun k => "w" ++ toString k
  rangeOrder := fun m => m.reverse
  rangeOrder_perm := fun m => List.reverse_perm m

/-! ## Properties -/

theorem deferredRollback_none (o : Outcome) : deferredRollback none o = o := rfl

theorem runTx_nil_or_unchanged (env : Env) (columnIndex : List (String × Nat))
    (reads : List (Except CsvError (List String))) (db : DB) :
    (runTx env columnIndex reads db).ret = Return.nil ∨
      (runTx env columnIndex reads db).committed = db := by
  unfold runTx
  split
  · split
    · unfold commitTx
      split
      · exact Or.inr rfl
      · exact Or.inl rfl
    · exact Or.inr rfl
  · exact Or.inr rfl

theorem LoadCSV_nil_or_unchanged (env : Env) (db : DB) (file : Option (List Line)) :
    (LoadCSV env db file).ret = Return.nil ∨ (LoadCSV env db file).committed = db := by
  unfold LoadCSV
  split
  · exact Or.inr rfl
  · split
    · exact Or.inr rfl
    · exact Or.inr rfl
    · simp only [deferredRollback_none]
      split
      · exact Or.inr rfl
      · exact runTx_nil_or_unchanged env _ _ db

/-- C1 (atomicity under failure).  Whatever the committed rows, the file and
the behaviour of the environment, a call of `LoadCSV` that returns an error
(a malformed row N, a failed read, a failed write, a failed commit) leaves
the committed chapters and verses equal to those before the call, although
the rows before row N were applied inside the transaction. -/
theorem LoadCSV_error_commits_nothing (env : Env) (db : DB) (file : Option (List Line))
    (e : LoadError) (h : (LoadCSV env db file).ret = Return.error e) :
    (LoadCSV env db file).committed = db := by
  rcases LoadCSV_nil_or_unchanged env db file with h1 | h1
  · rw [h1] at h; cases h
  · exact h1

/-- C1 at a file whose second data row is malformed: the first row was written
inside the transaction, the call fails, the committed rows are unchanged. -/
theorem LoadCSV_error_commits_nothing_witness :
    (LoadCSV calmEnv emptyDB (some fileBadSecondRow)).ret
        = Return.error LoadError.parseChapter ∧
      (LoadCSV calmEnv emptyDB (some fileBadSecondRow)).log
        = [Event.execInsertChapter 1 "Chapter 1",
           Event.execInsertVerse "u0" 1 1 "S1" "T1" "E1" "H1"] ∧
      (LoadCSV calmEnv emptyDB (some fileBadSecondRow)).committed = emptyDB :=
  ⟨by decide, by decide,
   LoadCSV_error_commits_nothing calmEnv emptyDB (some fileBadSecondRow)
     LoadError.parseChapter (by decide)⟩

theorem ExecContext_log (env : Env) (st : TxState) (ev : Event) (effect : DB → DB) :
    (ExecContext env st ev effect).2.log = st.log ++ [ev] := by
  unfold ExecContext
  split <;> rfl

theorem writeRow_log (env : Env) (r : Row) (st : TxState) (ev : Event)
    (h : ev ∈ (writeRow env r st).2.log) : ev ∈ st.log ∨ IsWriteOf r ev := by
  unfold writeRow ExecContext at h
  unfold IsWriteOf
  by_cases h1 : env.execFails st.execs = true
  · simp [h1] at h
    tauto
  · by_cases h2 : env.execFails (st.execs + 1) = true
    · simp [h1, h2] at h
      rcases h with h | h | h
      · exact Or.inl h
      · exact Or.inr (Or.inl h)
      · exact Or.inr (Or.inr ⟨_, h⟩)
    · simp [h1, h2] at h
      rcases h with h | h | h
      · exact Or.inl h
      · exact Or.inr (Or.inl h)
      · exact Or.inr (Or.inr ⟨_, h⟩)

theorem loopRecords_log (env : Env) (columnIndex : List (String × Nat))
    (reads : List (Except CsvError (List String))) (st : TxState) (ev : Event)
    (h : ev ∈ (loopRecords env columnIndex reads st).2.log) :
    ev ∈ st.log ∨ ∃ record r, Except.ok record ∈ reads ∧
      parseRecord columnIndex record = Parsed.row r ∧ IsWriteOf r ev := by
  induction reads generalizing st with
  | nil => exact Or.inl h
  | cons rd rest ih =>
    cases rd with
    | error e => exact Or.inl h
    | ok record =>
      unfold loopRecords at h
      cases hp : parseRecord columnIndex record with
      | indexOutOfRange => simp only [hp] at h; exact Or.inl h
      | fail e => simp only [hp] at h; exact Or.inl h
      | row r =>
        simp only [hp] at h
        cases hw : writeRow env r st with
        | mk oe st1 =>
          have hlog := writeRow_log env r st
          rw [hw] at hlog
          cases oe with
          | some e =>
            simp only [hw] at h
            rcases hlog ev h with h1 | h1
            · exact Or.inl h1
            · exact Or.inr ⟨record, r, List.mem_cons_self _ _, hp, h1⟩
          | none =>
            simp only [hw] at h
            rcases ih st1 h with h1 | ⟨rec1, r1, hm, hp1, hw1⟩
            · rcases hlog ev h1 with h2 | h2
              · exact Or.inl h2
              · exact Or.inr ⟨record, r, List.mem_cons_self _ _, hp, h2⟩
            · exact Or.inr ⟨rec1, r1, List.mem_cons_of_mem _ hm, hp1, hw1⟩

theorem updateCounts_log (env : Env) (m : List (Int × Int)) (st : TxState) (ev : Event)
    (h : ev ∈ (updateCounts env m st).2.log) :
    ev ∈ st.log ∨ ∃ count chapterID, ev = Event.execUpdateChapter count chapterID := by
  induction m generalizing st with
  | nil => exact Or.inl h
  | cons kv rest ih =>
    obtain ⟨chapterID, count⟩ := kv
    unfold updateCounts at h
    have hlog := ExecContext_log env st (Event.execUpdateChapter count chapterID)
      (fun db => updateChapterStmt db count chapterID)
    cases hx : ExecContext env st (Event.execUpdateChapter count chapterID)
      (fun db => updateChapterStmt db count chapterID) with
    | mk failed st1 =>
      rw [hx] at hlog
      simp only at hlog
      have key : ∀ ev1, ev1 ∈ st1.log →
          ev1 ∈ st.log ∨ ∃ count chapterID, ev1 = Event.execUpdateChapter count chapterID := by
        intro ev1 h1
        rw [hlog] at h1
        rcases List.mem_append.mp h1 with h2 | h2
        · exact Or.inl h2
        · exact Or.inr ⟨count, chapterID, by simpa using h2⟩
      cases failed with
      | true => simp only [hx] at h; exact key ev h
      | false =>
        simp only [hx] at h
        rcases ih st1 h with h1 | h1
        · exact key ev h1
        · exact Or.inr h1




theorem runTx_log (env : Env) (columnIndex : List (String × Nat))
    (reads : List (Except CsvError (List String))) (db : DB) (ev : Event)
    (h : ev ∈ (runTx env columnIndex reads db).log) :
    (∃ record r, Except.ok record ∈ reads ∧
        parseRecord columnIndex record = Parsed.row r ∧ IsWriteOf r ev) ∨
      (∃ count chapterID, ev = Event.execUpdateChapter count chapterID) ∨
      ev = Event.commit := by
  have hloop := loopRecords_log env columnIndex reads ⟨db, [], 0, 0, []⟩
  unfold runTx at h
  cases h1 : loopRecords env columnIndex reads ⟨db, [], 0, 0, []⟩ with
  | mk ret st =>
    rw [h1] at hloop
    have hst : ∀ ev1, ev1 ∈ st.log → ∃ record r, Except.ok record ∈ reads ∧
        parseRecord columnIndex record = Parsed.row r ∧ IsWriteOf r ev1 := by
      intro ev1 hm
      rcases hloop ev1 hm with h2 | h2
      · simp at h2
      · exact h2
    have hupd := updateCounts_log env (env.rangeOrder st.chapterVerseCounts) st
    cases h2 : updateCounts env (env.rangeOrder st.chapterVerseCounts) st with
    | mk ret1 st1 =>
      rw [h2] at hupd
      have hst1 : ∀ ev1, ev1 ∈ st1.log →
          (∃ record r, Except.ok record ∈ reads ∧
            parseRecord columnIndex record = Parsed.row r ∧ IsWriteOf r ev1) ∨
          (∃ count chapterID, ev1 = Event.execUpdateChapter count chapterID) := by
        intro ev1 hm
        rcases hupd ev1 hm with h3 | h3
        · exact Or.inl (hst ev1 h3)
        · exact Or.inr h3
      cases ret with
      | nil =>
        cases ret1 with
        | nil =>
          simp only [h1, h2] at h
          unfold commitTx at h
          have h3 : ev ∈ st1.log ++ [Event.commit] := by
            split at h <;> exact h
          rcases List.mem_append.mp h3 with h4 | h4
          · rcases hst1 ev h4 with h5 | h5
            · exact Or.inl h5
            · exact Or.inr (Or.inl h5)
          · exact Or.inr (Or.inr (by simpa using h4))
        | error e =>
          simp only [h1, h2] at h
          rcases hst1 ev h with h5 | h5
          · exact Or.inl h5
          · exact Or.inr (Or.inl h5)
        | indexOutOfRange =>
          simp only [h1, h2] at h
          rcases hst1 ev h with h5 | h5
          · exact Or.inl h5
          · exact Or.inr (Or.inl h5)
      | error e =>
        simp only [h1] at h
        exact Or.inl (hst ev h)
      | indexOutOfRange =>
        simp only [h1] at h
        exact Or.inl (hst ev h)

/-- Every call `LoadCSV` makes on the transaction is a write for a record
that was read and parsed, a `verse_count` update, or the commit. -/
theorem LoadCSV_log (env : Env) (db : DB) (file : Option (List Line)) (ev : Event)
    (h : ev ∈ (LoadCSV env db file).log) :
    (∃ lines header reads record r, file = some lines ∧
        readAll 0 lines = Except.ok header :: reads ∧ Except.ok record ∈ reads ∧
        parseRecord (buildColumnIndex header) record = Parsed.row r ∧ IsWriteOf r ev) ∨
      (∃ count chapterID, ev = Event.execUpdateChapter count chapterID) ∨
      ev = Event.commit := by
  unfold LoadCSV at h
  cases file with
  | none => simp at h
  | some lines =>
    simp only at h
    cases hr : readAll 0 lines with
    | nil => simp [hr] at h
    | cons rd reads =>
      cases rd with
      | error e => simp [hr] at h
      | ok header =>
        simp only [hr, deferredRollback_none] at h
        by_cases hb : env.beginFails = true
        · simp [hb] at h
        · simp only [hb] at h
          rcases runTx_log env _ reads db ev h with ⟨record, r, h1, h2, h3⟩ | h1 | h1
          · exact Or.inl ⟨lines, header, reads, record, r, rfl, hr, h1, h2, h3⟩
          · exact Or.inr (Or.inl h1)
          · exact Or.inr (Or.inr h1)

/-- On no input does `LoadCSV` call `tx.Rollback`. -/
theorem LoadCSV_never_calls_Rollback (env : Env) (db : DB) (file : Option (List Line)) :
    Event.rollback ∉ (LoadCSV env db file).log := by
  intro h
  rcases LoadCSV_log env db file _ h with ⟨_, _, _, _, r, _, _, _, _, h1⟩ | ⟨_, _, h1⟩ | h1
  · rcases h1 with h2 | ⟨_, h2⟩ <;> cases h2
  · cases h1
  · cases h1

/-- C5 (rollback on every error path), evaluated on a file whose second data
row has a non-numeric chapter field: the call returns the parse error with
the first row's two writes made, no `tx.Rollback` call follows them, and the
transaction is left open. -/
theorem LoadCSV_parse_error_leaves_tx_open :
    LoadCSV calmEnv emptyDB (some fileBadSecondRow)
      = ⟨Return.error LoadError.parseChapter, emptyDB, true,
         [Event.execInsertChapter 1 "Chapter 1",
          Event.execInsertVerse "u0" 1 1 "S1" "T1" "E1" "H1"]⟩ := by
  decide

theorem writeRow_ok_state (env : Env) (r : Row) (st st1 : TxState)
    (h : writeRow env r st = (none, st1)) :
    st1 = ⟨insertVerseStmt (insertChapterStmt st.tx r.chapterNum (chapterName r.chapterNum))
            (env.uuid st.uuids) r.chapterNum r.verseNum r.sanskrit r.transliteration
            r.english r.hindi,
          mapSet st.chapterVerseCounts r.chapterNum
            (mapGet 0 st.chapterVerseCounts r.chapterNum + 1),
          st.execs + 2, st.uuids + 1,
          st.log ++ [Event.execInsertChapter r.chapterNum (chapterName r.chapterNum),
            Event.execInsertVerse (env.uuid st.uuids) r.chapterNum r.verseNum r.sanskrit
              r.transliteration r.english r.hindi]⟩ := by
  unfold writeRow ExecContext at h
  by_cases h1 : env.execFails st.execs = true
  · simp [h1] at h
  · by_cases h2 : env.execFails (st.execs + 1) = true
    · simp [h1, h2] at h
    · simp [h1, h2] at h
      rw [← h]

theorem insertChapterStmt_verses (db : DB) (id : Int) (name : String) :
    (insertChapterStmt db id name).verses = db.verses := by
  unfold insertChapterStmt
  split <;> rfl

theorem forall₂_map_right_of {α : Type} (R : α → α → Prop) (f : α → α) (l : List α)
    (h : ∀ a ∈ l, R a (f a)) : List.Forall₂ R l (l.map f) := by
  induction l with
  | nil => exact List.Forall₂.nil
  | cons a l ih =>
    exact List.Forall₂.cons (h a (List.mem_cons_self _ _))
      (ih (fun b hb => h b (List.mem_cons_of_mem _ hb)))

/-- C4 (upsert precedence).  When the loop body writes a row without a store
error it draws one fresh identifier; if a verse with the row's natural key is
stored, every stored verse keeps its identifier, chapter id and verse number,
the verse under that key gets the row's four texts and the others are
unchanged, so the fresh identifier is not used; if no verse has the key, one
verse with the fresh identifier, the row's key and the row's texts is added. -/
theorem writeRow_upsert (env : Env) (r : Row) (st st1 : TxState)
    (h : writeRow env r st = (none, st1)) :
    st1.uuids = st.uuids + 1 ∧
      (st.tx.verses.any (hasKey r.chapterNum r.verseNum) = true →
        List.Forall₂ (UpsertedFrom r) st.tx.verses st1.tx.verses) ∧
      (st.tx.verses.any (hasKey r.chapterNum r.verseNum) = false →
        st1.tx.verses = st.tx.verses ++
          [⟨env.uuid st.uuids, r.chapterNum, r.verseNum, r.sanskrit, r.transliteration,
            r.english, r.hindi⟩]) := by
  have hst := writeRow_ok_state env r st st1 h
  subst hst
  refine ⟨rfl, ?_, ?_⟩
  · intro hk
    simp only [insertVerseStmt, insertChapterStmt_verses, hk, if_true]
    apply forall₂_map_right_of
    intro v _
    unfold UpsertedFrom
    by_cases hv : hasKey r.chapterNum r.verseNum v = true
    · simp [hv, setTexts]
    · simp [hv]
  · intro hk
    simp only [insertVerseStmt, insertChapterStmt_verses, hk]
    simp

/-- C4 on a transaction holding verse (2, 5) under the identifier `id-5`: the
row with the same key is written, a fresh identifier `u0` is drawn for it,
and the stored verse keeps `id-5` and its key while its four texts change. -/
theorem writeRow_upsert_witness :
    writeRow calmEnv rowTwoFive stateTwoFive = (none, stateTwoFiveAfter) ∧
      stateTwoFiveAfter.uuids = stateTwoFive.uuids + 1 ∧
      List.Forall₂ (UpsertedFrom rowTwoFive) stateTwoFive.tx.verses
        stateTwoFiveAfter.tx.verses :=
  ⟨by decide,
   (writeRow_upsert calmEnv rowTwoFive stateTwoFive stateTwoFiveAfter (by decide)).1,
   (writeRow_upsert calmEnv rowTwoFive stateTwoFive stateTwoFiveAfter (by decide)).2.1
     (by decide)⟩

theorem writeRow_eq_applyRow (env : Env) (r : Row) (st st1 : TxState)
    (h : writeRow env r st = (none, st1)) : st1 = applyRow env st r :=
  writeRow_ok_state env r st st1 h

theorem writeRow_calm (env : Env) (r : Row) (st : TxState)
    (hx : ∀ k, env.execFails k = false) : writeRow env r st = (none, applyRow env st r) := by
  unfold writeRow ExecContext applyRow
  simp [hx]

/-- A loop that ends by `break` has read only records that parse, and its
final state is the fold of `applyRow` over their rows. -/
theorem loopRecords_nil (env : Env) (columnIndex : List (String × Nat))
    (reads : List (Except CsvError (List String))) (st st1 : TxState)
    (h : loopRecords env columnIndex reads st = (Return.nil, st1)) :
    AllParse columnIndex reads ∧
      st1 = (rowsOf columnIndex reads).foldl (applyRow env) st := by
  induction reads generalizing st with
  | nil =>
    simp only [loopRecords, Prod.mk.injEq, true_and] at h
    exact ⟨fun rd hrd => (by cases hrd), (by simp [rowsOf, h])⟩
  | cons rd rest ih =>
    cases rd with
    | error e => simp [loopRecords] at h
    | ok record =>
      unfold loopRecords at h
      cases hp : parseRecord columnIndex record with
      | indexOutOfRange => simp [hp] at h
      | fail e => simp [hp] at h
      | row r =>
        simp only [hp] at h
        cases hw : writeRow env r st with
        | mk oe st2 =>
          cases oe with
          | some e => simp [hw] at h
          | none =>
            simp only [hw] at h
            obtain ⟨ha, hs⟩ := ih st2 h
            have h2 := writeRow_eq_applyRow env r st st2 hw
            refine ⟨?_, ?_⟩
            · intro rd hrd
              rcases List.mem_cons.mp hrd with h3 | h3
              · exact ⟨record, r, h3, hp⟩
              · exact ha rd h3
            · simp only [rowsOf, hp, List.foldl_cons]
              rw [hs, h2]

/-- Without store errors, a loop over records that all parse ends by `break`. -/
theorem loopRecords_calm (env : Env) (columnIndex : List (String × Nat))
    (reads : List (Except CsvError (List String))) (st : TxState)
    (hx : ∀ k, env.execFails k = false) (hp : AllParse columnIndex reads) :
    loopRecords env columnIndex reads st
      = (Return.nil, (rowsOf columnIndex reads).foldl (applyRow env) st) := by
  induction reads generalizing st with
  | nil => rfl
  | cons rd rest ih =>
    obtain ⟨record, r, hrd, hpr⟩ := hp rd (List.mem_cons_self _ _)
    subst hrd
    have hrest : AllParse columnIndex rest := fun rd1 h1 => hp rd1 (List.mem_cons_of_mem _ h1)
    simp only [loopRecords, hpr, writeRow_calm env r st hx, rowsOf, List.foldl_cons]
    exact ih _ hrest

theorem updateCounts_nil (env : Env) (m : List (Int × Int)) (st st1 : TxState)
    (h : updateCounts env m st = (Return.nil, st1)) : st1 = m.foldl applyUpdate st := by
  induction m generalizing st with
  | nil =>
    simp only [updateCounts, Prod.mk.injEq, true_and] at h
    simp [h]
  | cons kv rest ih =>
    obtain ⟨chapterID, count⟩ := kv
    unfold updateCounts ExecContext at h
    by_cases hx : env.execFails st.execs = true
    · simp [hx] at h
    · simp only [hx] at h
      simp only [List.foldl_cons]
      exact ih _ h

theorem updateCounts_calm (env : Env) (m : List (Int × Int)) (st : TxState)
    (hx : ∀ k, env.execFails k = false) :
    updateCounts env m st = (Return.nil, m.foldl applyUpdate st) := by
  induction m generalizing st with
  | nil => rfl
  | cons kv rest ih =>
    obtain ⟨chapterID, count⟩ := kv
    simp only [updateCounts, ExecContext, hx, List.foldl_cons]
    exact ih _

/-- A pass that returns nil has read only records that parse, and it
committed the state `passState` of their rows. -/
theorem runTx_nil (env : Env) (columnIndex : List (String × Nat))
    (reads : List (Except CsvError (List String))) (db : DB)
    (h : (runTx env columnIndex reads db).ret = Return.nil) :
    AllParse columnIndex reads ∧
      runTx env columnIndex reads db =
        ⟨Return.nil, (passState env db (rowsOf columnIndex reads)).tx, false,
         (passState env db (rowsOf columnIndex reads)).log ++ [Event.commit]⟩ := by
  unfold runTx at h ⊢
  unfold passState
  cases h1 : loopRecords env columnIndex reads ⟨db, [], 0, 0, []⟩ with
  | mk ret st =>
    cases ret with
    | nil =>
      obtain ⟨ha, hs⟩ := loopRecords_nil env columnIndex reads _ st h1
      subst hs
      simp only [h1] at h ⊢
      cases h2 : updateCounts env (env.rangeOrder ((rowsOf columnIndex reads).foldl (applyRow env)
              ⟨db, [], 0, 0, []⟩).chapterVerseCounts) ((rowsOf columnIndex reads).foldl (applyRow env)
              ⟨db, [], 0, 0, []⟩) with
      | mk ret1 st1 =>
        cases ret1 with
        | nil =>
          have hs1 := updateCounts_nil env _ _ st1 h2
          subst hs1
          simp only [h2] at h ⊢
          unfold commitTx at h ⊢
          by_cases hc : env.commitFails = true
          · simp [hc] at h
          · simp only [hc]
            exact ⟨ha, rfl⟩
        | error e => simp [h2] at h
        | indexOutOfRange => simp [h2] at h
    | error e => simp [h1] at h
    | indexOutOfRange => simp [h1] at h

theorem runTx_calm (env : Env) (columnIndex : List (String × Nat))
    (reads : List (Except CsvError (List String))) (db : DB)
    (hx : ∀ k, env.execFails k = false) (hc : env.commitFails = false)
    (hp : AllParse columnIndex reads) :
    runTx env columnIndex reads db =
      ⟨Return.nil, (passState env db (rowsOf columnIndex reads)).tx, false,
       (passState env db (rowsOf columnIndex reads)).log ++ [Event.commit]⟩ := by
  unfold runTx passState
  simp only [loopRecords_calm env columnIndex reads _ hx hp, updateCounts_calm env _ _ hx,
    commitTx, hc]
  rfl

/-- A call that returns nil read a header and records that all parse, and
committed the state `passState` of the file's rows. -/
theorem LoadCSV_nil (env : Env) (db : DB) (file : Option (List Line))
    (h : (LoadCSV env db file).ret = Return.nil) :
    (∃ lines header reads, file = some lines ∧
        readAll 0 lines = Except.ok header :: reads ∧
        AllParse (buildColumnIndex header) reads) ∧
      LoadCSV env db file =
        ⟨Return.nil, (passState env db (sourceRows file)).tx, false,
         (passState env db (sourceRows file)).log ++ [Event.commit]⟩ := by
  unfold LoadCSV at h ⊢
  cases file with
  | none => simp at h
  | some lines =>
    simp only at h ⊢
    cases hr : readAll 0 lines with
    | nil => simp [hr] at h
    | cons rd reads =>
      cases rd with
      | error e => simp [hr] at h
      | ok header =>
        simp only [hr, deferredRollback_none] at h ⊢
        by_cases hb : env.beginFails = true
        · simp [hb] at h
        · simp only [hb] at h ⊢
          obtain ⟨ha, hs⟩ := runTx_nil env _ reads db h
          refine ⟨⟨lines, header, reads, rfl, hr, ha⟩, ?_⟩
          simp only [sourceRows, hr]
          simpa using hs

/-- In a calm environment a file whose records all parse is loaded. -/
theorem LoadCSV_calm (env : Env) (db : DB) (lines : List Line) (header : List String)
    (reads : List (Except CsvError (List String))) (hcalm : env.Calm)
    (hr : readAll 0 lines = Except.ok header :: reads)
    (hp : AllParse (buildColumnIndex header) reads) :
    LoadCSV env db (some lines) =
      ⟨Return.nil, (passState env db (rowsOf (buildColumnIndex header) reads)).tx, false,
       (passState env db (rowsOf (buildColumnIndex header) reads)).log ++ [Event.commit]⟩ := by
  obtain ⟨hb, hx, hc⟩ := hcalm
  unfold LoadCSV
  simp only [hr, hb, deferredRollback_none]
  simpa using runTx_calm env _ reads db hx hc hp

theorem mapGet_of_not_mem {κ ν : Type} [DecidableEq κ] (zero : ν) (m : List (κ × ν)) (k : κ)
    (h : k ∉ m.map Prod.fst) : mapGet zero m k = zero := by
  induction m with
  | nil => rfl
  | cons e rest ih =>
    obtain ⟨k1, v1⟩ := e
    simp only [List.map_cons, List.mem_cons, not_or] at h
    unfold mapGet
    rw [if_neg (fun hk => h.1 hk.symm)]
    exact ih h.2

theorem mem_keys_mapSet {κ ν : Type} [DecidableEq κ] (m : List (κ × ν)) (k : κ) (v : ν) (x : κ) :
    x ∈ (mapSet m k v).map Prod.fst ↔ x = k ∨ x ∈ m.map Prod.fst := by
  induction m with
  | nil => simp [mapSet]
  | cons e rest ih =>
    obtain ⟨k1, v1⟩ := e
    unfold mapSet
    by_cases hk : k1 = k
    · subst hk
      simp
    · rw [if_neg hk]
      simp only [List.map_cons, List.mem_cons, ih]
      tauto

theorem mem_keys_fillColumnIndex (cols : List String) (idx : Nat) (m : List (String × Nat))
    (x : String) :
    x ∈ (fillColumnIndex cols idx m).map Prod.fst ↔ x ∈ cols ∨ x ∈ m.map Prod.fst := by
  induction cols generalizing idx m with
  | nil => simp [fillColumnIndex]
  | cons col cols ih =>
    unfold fillColumnIndex
    rw [ih, mem_keys_mapSet]
    simp only [List.mem_cons]
    tauto

/-- A name that is not in the header is looked up at index 0. -/
theorem columnIndex_absent (header : List String) (name : String) (h : name ∉ header) :
    mapGet 0 (buildColumnIndex header) name = 0 := by
  apply mapGet_of_not_mem
  unfold buildColumnIndex
  rw [mem_keys_fillColumnIndex]
  simp [h]

theorem applyRow_log_subset (env : Env) (rows : List Row) (st : TxState) (ev : Event)
    (h : ev ∈ st.log) : ev ∈ (rows.foldl (applyRow env) st).log := by
  induction rows generalizing st with
  | nil => exact h
  | cons r rows ih =>
    simp only [List.foldl_cons]
    apply ih
    simp [applyRow, h]

theorem applyUpdate_log_subset (m : List (Int × Int)) (st : TxState) (ev : Event)
    (h : ev ∈ st.log) : ev ∈ (m.foldl applyUpdate st).log := by
  induction m generalizing st with
  | nil => exact h
  | cons kv m ih =>
    simp only [List.foldl_cons]
    apply ih
    simp [applyUpdate, h]

theorem applyRow_log_mem (env : Env) (rows : List Row) (st : TxState) (r : Row)
    (h : r ∈ rows) :
    Event.execInsertChapter r.chapterNum (chapterName r.chapterNum)
        ∈ (rows.foldl (applyRow env) st).log ∧
      ∃ id, Event.execInsertVerse id r.chapterNum r.verseNum r.sanskrit r.transliteration
        r.english r.hindi ∈ (rows.foldl (applyRow env) st).log := by
  induction rows generalizing st with
  | nil => cases h
  | cons r1 rows ih =>
    simp only [List.foldl_cons]
    rcases List.mem_cons.mp h with h1 | h1
    · subst h1
      refine ⟨applyRow_log_subset env rows _ _ (by simp [applyRow]), env.uuid st.uuids, ?_⟩
      exact applyRow_log_subset env rows _ _ (by simp [applyRow])
    · exact ih _ h1

theorem passState_log_mem (env : Env) (db : DB) (rows : List Row) (r : Row) (h : r ∈ rows) :
    Event.execInsertChapter r.chapterNum (chapterName r.chapterNum)
        ∈ (passState env db rows).log ∧
      ∃ id, Event.execInsertVerse id r.chapterNum r.verseNum r.sanskrit r.transliteration
        r.english r.hindi ∈ (passState env db rows).log := by
  obtain ⟨h1, id, h2⟩ := applyRow_log_mem env rows ⟨db, [], 0, 0, []⟩ r h
  exact ⟨applyUpdate_log_subset _ _ _ h1, id, applyUpdate_log_subset _ _ _ h2⟩

/-- What a parsed row says about the record it came from. -/
theorem parseRecord_row (columnIndex : List (String × Nat)) (record : List String)
    (r : Row) (h : parseRecord columnIndex record = Parsed.row r) :
    (∃ chapterField, field columnIndex record "chapter" = some chapterField ∧
        parseInt chapterField = Except.ok r.chapterNum) ∧
      (∃ verseField, field columnIndex record "verse" = some verseField ∧
        parseInt verseField = Except.ok r.verseNum) ∧
      field columnIndex record "sanskrit" = some r.sanskrit ∧
      field columnIndex record "hindi" = some r.hindi ∧
      field columnIndex record "english" = some r.english ∧
      field columnIndex record "transliteration" = some r.transliteration := by
  unfold parseRecord at h
  repeat' split at h
  all_goals first
    | (cases h; exact ⟨⟨_, by assumption, by assumption⟩, ⟨_, by assumption, by assumption⟩,
        by assumption, by assumption, by assumption, by assumption⟩)
    | cases h

theorem calmEnv_calm : calmEnv.Calm :=
  ⟨rfl, fun _ => rfl, rfl⟩

/-- C6 (missing column), as amended.  A header that lacks a column name is
not rejected: the absent name is looked up at index 0, so every record
supplies its first field for that column.  When the store raises no error and
every record parses with the columns so resolved, `LoadCSV` returns nil and
has executed the chapter insert and the verse upsert of every record; when
the absent name is `hindi`, the hindi text of each row is the first field of
its record. -/
theorem LoadCSV_absent_column_not_rejected (env : Env) (db : DB) (lines : List Line)
    (header : List String) (reads : List (Except CsvError (List String))) (name : String)
    (hr : readAll 0 lines = Except.ok header :: reads) (habs : name ∉ header)
    (hcalm : env.Calm) (hp : AllParse (buildColumnIndex header) reads) :
    (∀ record, field (buildColumnIndex header) record name = record[0]?) ∧
      (LoadCSV env db (some lines)).ret = Return.nil ∧
      (∀ r ∈ rowsOf (buildColumnIndex header) reads,
        Event.execInsertChapter r.chapterNum (chapterName r.chapterNum)
            ∈ (LoadCSV env db (some lines)).log ∧
          ∃ id, Event.execInsertVerse id r.chapterNum r.verseNum r.sanskrit r.transliteration
            r.english r.hindi ∈ (LoadCSV env db (some lines)).log) ∧
      (name = "hindi" → ∀ record r,
        parseRecord (buildColumnIndex header) record = Parsed.row r →
          record[0]? = some r.hindi) := by
  have hfield : ∀ record, field (buildColumnIndex header) record name = record[0]? := by
    intro record
    unfold field
    rw [columnIndex_absent header name habs]
  refine ⟨hfield, ?_, ?_, ?_⟩
  · rw [LoadCSV_calm env db lines header reads hcalm hr hp]
  · intro r hmem
    rw [LoadCSV_calm env db lines header reads hcalm hr hp]
    obtain ⟨h1, id, h2⟩ := passState_log_mem env db _ r hmem
    exact ⟨List.mem_append_left _ h1, id, List.mem_append_left _ h2⟩
  · intro hn record r hrow
    subst hn
    rw [← hfield record]
    exact (parseRecord_row _ record r hrow).2.2.2.1

/-- C6 amended, at a file whose header is
`chapter,verse,sanskrit,transliteration,english`. -/
theorem LoadCSV_absent_column_not_rejected_witness :
    (LoadCSV calmEnv emptyDB (some fileNoHindi)).ret = Return.nil ∧
      (∀ record r,
        parseRecord
            (buildColumnIndex ["chapter", "verse", "sanskrit", "transliteration", "english"])
            record = Parsed.row r →
          record[0]? = some r.hindi) :=
  have h := LoadCSV_absent_column_not_rejected calmEnv emptyDB fileNoHindi
    ["chapter", "verse", "sanskrit", "transliteration", "english"]
    [Except.ok ["1", "1", "S1", "T1", "E1"]] "hindi" (by decide) (by decide) calmEnv_calm
    (by
      intro rd hrd
      rw [List.mem_singleton] at hrd
      exact ⟨["1", "1", "S1", "T1", "E1"], ⟨1, 1, "S1", "1", "E1", "T1"⟩, hrd, by decide⟩)
  ⟨h.2.1, h.2.2.2 rfl⟩

/-- C6 as stated fails: the header has no `hindi` column, yet `LoadCSV`
returns nil, having written chapter 1 and verse (1, 1), whose hindi text is
the row's first field `1`. -/
theorem LoadCSV_missing_hindi_loads :
    "hindi" ∉ ["chapter", "verse", "sanskrit", "transliteration", "english"] ∧
      LoadCSV calmEnv emptyDB (some fileNoHindi)
        = ⟨Return.nil,
           ⟨[⟨1, "Chapter 1", "", "", "", 1⟩], [⟨"u0", 1, 1, "S1", "T1", "E1", "1"⟩]⟩,
           false,
           [Event.execInsertChapter 1 "Chapter 1",
            Event.execInsertVerse "u0" 1 1 "S1" "T1" "E1" "1",
            Event.execUpdateChapter 1 1,
            Event.commit]⟩ := by
  decide

/-- C7 (positive chapter and verse numbers), evaluated on a file whose only
data row has chapter `0` and verse `-3`: `LoadCSV` returns nil and commits
chapter 0 and verse (0, -3), although the router's `parsePositiveInt` rejects
both texts. -/
theorem LoadCSV_accepts_zero_and_negative :
    LoadCSV calmEnv emptyDB (some fileZeroChapter)
        = ⟨Return.nil,
           ⟨[⟨0, "Chapter 0", "", "", "", 1⟩], [⟨"u0", 0, -3, "S1", "T1", "E1", "H1"⟩]⟩,
           false,
           [Event.execInsertChapter 0 "Chapter 0",
            Event.execInsertVerse "u0" 0 (-3) "S1" "T1" "E1" "H1",
            Event.execUpdateChapter 1 0,
            Event.commit]⟩ ∧
      parseInt "0" = Except.ok 0 ∧ parseInt "-3" = Except.ok (-3) ∧
      parsePositiveInt "0" = none ∧ parsePositiveInt "-3" = none := by
  decide

/-- Once `FieldsPerRecord` is positive, every record `Read` returns without an
error is a line of the file with exactly that many fields. -/
theorem readAll_ok_length (fpr : Nat) (hpos : 0 < fpr) (lines : List Line)
    (record : List String) (h : Except.ok record ∈ readAll fpr lines) :
    record.length = fpr ∧ Line.fields record ∈ lines := by
  induction lines with
  | nil => simp [readAll] at h
  | cons l rest ih =>
    cases l with
    | bad =>
      simp only [readAll, List.mem_cons] at h
      rcases h with h | h
      · cases h
      · exact ⟨(ih h).1, List.mem_cons_of_mem _ (ih h).2⟩
    | fields fs =>
      cases fs with
      | nil =>
        simp only [readAll] at h
        exact ⟨(ih h).1, List.mem_cons_of_mem _ (ih h).2⟩
      | cons f fs =>
        simp only [readAll, if_neg (Nat.pos_iff_ne_zero.mp hpos)] at h
        by_cases hl : fs.length + 1 = fpr
        · simp only [hl, if_true, List.mem_cons] at h
          rcases h with h | h
          · simp only [Except.ok.injEq] at h
            subst h
            exact ⟨by simpa using hl, List.mem_cons_self _ _⟩
          · exact ⟨(ih h).1, List.mem_cons_of_mem _ (ih h).2⟩
        · simp only [hl, if_false, List.mem_cons] at h
          rcases h with h | h
          · cases h
          · exact ⟨(ih h).1, List.mem_cons_of_mem _ (ih h).2⟩

/-- A line with a number of fields other than `FieldsPerRecord` makes some
`Read` call return `ErrFieldCount`. -/
theorem readAll_short_error (fpr : Nat) (hpos : 0 < fpr) (lines : List Line)
    (short : List String) (hmem : Line.fields short ∈ lines) (hne : short ≠ [])
    (hlen : short.length ≠ fpr) :
    Except.error CsvError.ErrFieldCount ∈ readAll fpr lines := by
  induction lines with
  | nil => cases hmem
  | cons l rest ih =>
    rcases List.mem_cons.mp hmem with h | h
    · subst h
      cases short with
      | nil => exact absurd rfl hne
      | cons f fs =>
        simp only [readAll, if_neg (Nat.pos_iff_ne_zero.mp hpos)]
        have hl : ¬ fs.length + 1 = fpr := by simpa using hlen
        simp [hl]
    · have h1 := ih h
      cases l with
      | bad => simp [readAll, h1]
      | fields fs =>
        cases fs with
        | nil => simpa [readAll] using h1
        | cons f fs =>
          simp only [readAll, if_neg (Nat.pos_iff_ne_zero.mp hpos)]
          split
          · exact List.mem_cons_of_mem _ h1
          · exact List.mem_cons_of_mem _ h1

/-- The first record of a file, after any empty lines, is the header and sets
`FieldsPerRecord` to its length. -/
theorem readAll_header (pre rest : List Line) (header : List String)
    (hpre : ∀ l ∈ pre, l = Line.fields []) (hh : header ≠ []) :
    readAll 0 (pre ++ Line.fields header :: rest)
      = Except.ok header :: readAll header.length rest := by
  induction pre with
  | nil =>
    cases header with
    | nil => exact absurd rfl hh
    | cons f fs => simp [readAll]
  | cons l pre ih =>
    have hl := hpre l (List.mem_cons_self _ _)
    subst hl
    simp only [List.cons_append, readAll]
    exact ih (fun l1 h1 => hpre l1 (List.mem_cons_of_mem _ h1))

/-- Converse of `readAll_header`. -/
theorem readAll_zero_cons (lines : List Line) (header : List String)
    (reads : List (Except CsvError (List String)))
    (h : readAll 0 lines = Except.ok header :: reads) :
    header ≠ [] ∧ ∃ pre rest, lines = pre ++ Line.fields header :: rest ∧
      (∀ l ∈ pre, l = Line.fields []) ∧ reads = readAll header.length rest := by
  induction lines with
  | nil => simp [readAll] at h
  | cons l lines ih =>
    cases l with
    | bad => simp [readAll] at h
    | fields fs =>
      cases fs with
      | nil =>
        simp only [readAll] at h
        obtain ⟨hh, pre, rest, h1, h2, h3⟩ := ih h
        refine ⟨hh, Line.fields [] :: pre, rest, by simp [h1], ?_, h3⟩
        intro l1 hl1
        rcases List.mem_cons.mp hl1 with h4 | h4
        · exact h4
        · exact h2 l1 h4
      | cons f fs =>
        simp only [readAll, if_true, List.cons.injEq, Except.ok.injEq] at h
        obtain ⟨h1, h2⟩ := h
        subst h1
        refine ⟨by simp, [], lines, rfl, by simp, ?_⟩
        simpa using h2.symm

theorem mapGet_lt {κ : Type} [DecidableEq κ] (m : List (κ × Nat)) (k : κ) (bound : Nat)
    (hpos : 0 < bound) (h : ∀ e ∈ m, e.2 < bound) : mapGet 0 m k < bound := by
  induction m with
  | nil => exact hpos
  | cons e rest ih =>
    obtain ⟨k1, v1⟩ := e
    unfold mapGet
    split
    · exact h (k1, v1) (List.mem_cons_self _ _)
    · exact ih (fun e1 h1 => h e1 (List.mem_cons_of_mem _ h1))

theorem mapSet_values_lt {κ : Type} [DecidableEq κ] (m : List (κ × Nat)) (k : κ) (v bound : Nat)
    (hv : v < bound) (h : ∀ e ∈ m, e.2 < bound) : ∀ e ∈ mapSet m k v, e.2 < bound := by
  induction m with
  | nil =>
    intro e he
    simp only [mapSet, List.mem_singleton] at he
    subst he
    exact hv
  | cons e0 rest ih =>
    obtain ⟨k1, v1⟩ := e0
    intro e he
    unfold mapSet at he
    split at he
    · rcases List.mem_cons.mp he with h1 | h1
      · subst h1; exact hv
      · exact h e (List.mem_cons_of_mem _ h1)
    · rcases List.mem_cons.mp he with h1 | h1
      · subst h1; exact h (k1, v1) (List.mem_cons_self _ _)
      · exact ih (fun e1 h2 => h e1 (List.mem_cons_of_mem _ h2)) e h1

theorem fillColumnIndex_values_lt (cols : List String) (idx : Nat) (m : List (String × Nat))
    (bound : Nat) (hb : idx + cols.length ≤ bound) (h : ∀ e ∈ m, e.2 < bound) :
    ∀ e ∈ fillColumnIndex cols idx m, e.2 < bound := by
  induction cols generalizing idx m with
  | nil => simpa [fillColumnIndex] using h
  | cons col cols ih =>
    unfold fillColumnIndex
    simp only [List.length_cons] at hb
    apply ih (idx + 1) _ (by omega)
    exact mapSet_values_lt m col idx bound (by omega) h

/-- Every index `columnIndex[name]`, the default 0 of an absent name included,
is below the number of header fields. -/
theorem columnIndex_lt (header : List String) (hh : header ≠ []) (name : String) :
    mapGet 0 (buildColumnIndex header) name < header.length := by
  apply mapGet_lt _ _ _ (List.length_pos.mpr hh)
  unfold buildColumnIndex
  exact fillColumnIndex_values_lt header 0 [] header.length (by omega) (by simp)

theorem field_isSome (header record : List String) (hh : header ≠ [])
    (hlen : record.length = header.length) (name : String) :
    ∃ value, field (buildColumnIndex header) record name = some value := by
  unfold field
  have hlt := columnIndex_lt header hh name
  rw [← hlen] at hlt
  exact ⟨record[mapGet 0 (buildColumnIndex header) name], List.getElem?_eq_getElem hlt⟩

/-- A record with as many fields as the header is parsed without an index
out of range. -/
theorem parseRecord_in_range (header record : List String) (hh : header ≠ [])
    (hlen : record.length = header.length) :
    parseRecord (buildColumnIndex header) record ≠ Parsed.indexOutOfRange := by
  obtain ⟨v1, h1⟩ := field_isSome header record hh hlen "chapter"
  obtain ⟨v2, h2⟩ := field_isSome header record hh hlen "verse"
  obtain ⟨v3, h3⟩ := field_isSome header record hh hlen "sanskrit"
  obtain ⟨v4, h4⟩ := field_isSome header record hh hlen "hindi"
  obtain ⟨v5, h5⟩ := field_isSome header record hh hlen "english"
  obtain ⟨v6, h6⟩ := field_isSome header record hh hlen "transliteration"
  unfold parseRecord
  simp only [h1, h2, h3, h4, h5, h6]
  cases parseInt v1 with
  | error e => simp
  | ok n =>
    cases parseInt v2 with
    | error e => simp
    | ok n2 => simp

theorem loopRecords_in_range (env : Env) (header : List String) (hh : header ≠ [])
    (reads : List (Except CsvError (List String))) (st : TxState)
    (hlen : ∀ record, Except.ok record ∈ reads → record.length = header.length) :
    (loopRecords env (buildColumnIndex header) reads st).1 ≠ Return.indexOutOfRange := by
  induction reads generalizing st with
  | nil => simp [loopRecords]
  | cons rd rest ih =>
    cases rd with
    | error e => simp [loopRecords]
    | ok record =>
      have h1 := parseRecord_in_range header record hh (hlen record (List.mem_cons_self _ _))
      unfold loopRecords
      cases hp : parseRecord (buildColumnIndex header) record with
      | indexOutOfRange => exact absurd hp h1
      | fail e => simp
      | row r =>
        simp only
        cases hw : writeRow env r st with
        | mk oe st1 =>
          cases oe with
          | some e => simp
          | none =>
            simp only
            exact ih st1 (fun record1 hm => hlen record1 (List.mem_cons_of_mem _ hm))

theorem updateCounts_in_range (env : Env) (m : List (Int × Int)) (st : TxState) :
    (updateCounts env m st).1 ≠ Return.indexOutOfRange := by
  induction m generalizing st with
  | nil => simp [updateCounts]
  | cons kv rest ih =>
    obtain ⟨chapterID, count⟩ := kv
    unfold updateCounts
    cases hx : ExecContext env st (Event.execUpdateChapter count chapterID)
      (fun db => updateChapterStmt db count chapterID) with
    | mk failed st1 =>
      cases failed with
      | true => simp
      | false => simp only; exact ih st1

/-- No index expression `record[columnIndex[name]]` of `LoadCSV` is ever out
of range. -/
theorem LoadCSV_in_range (env : Env) (db : DB) (file : Option (List Line)) :
    (LoadCSV env db file).ret ≠ Return.indexOutOfRange := by
  unfold LoadCSV
  cases file with
  | none => simp
  | some lines =>
    simp only
    cases hr : readAll 0 lines with
    | nil => simp
    | cons rd reads =>
      cases rd with
      | error e => simp
      | ok header =>
        simp only [deferredRollback_none]
        by_cases hb : env.beginFails = true
        · simp [hb]
        · simp only [hb]
          obtain ⟨hh, pre, rest, h1, h2, h3⟩ := readAll_zero_cons lines header reads hr
          have hlen : ∀ record, Except.ok record ∈ reads → record.length = header.length := by
            intro record hm
            rw [h3] at hm
            exact (readAll_ok_length header.length (List.length_pos.mpr hh) rest record hm).1
          have hloop := loopRecords_in_range env header hh reads ⟨db, [], 0, 0, []⟩ hlen
          unfold runTx
          cases h4 : loopRecords env (buildColumnIndex header) reads ⟨db, [], 0, 0, []⟩ with
          | mk ret st =>
            rw [h4] at hloop
            cases ret with
            | nil =>
              simp only
              have hupd := updateCounts_in_range env (env.rangeOrder st.chapterVerseCounts) st
              cases h5 : updateCounts env (env.rangeOrder st.chapterVerseCounts) st with
              | mk ret1 st1 =>
                rw [h5] at hupd
                cases ret1 with
                | nil =>
                  simp only [commitTx]
                  by_cases hc : env.commitFails = true <;> simp [hc]
                | error e => simp
                | indexOutOfRange => exact absurd rfl hupd
            | error e => simp
            | indexOutOfRange => exact absurd rfl hloop

/-- C8 (short rows and index safety).  Take any file whose header, after any
empty lines, is followed by a data row with at least one field but fewer
fields than the header.  Then `LoadCSV` returns an error; every chapter or
verse write it made belongs to a record of the file with exactly as many
fields as the header, so none belongs to the short row; every record that
reaches the field lookups has as many fields as the header; every index
`columnIndex[name]`, the default 0 included, is below that number; and so
each of the lookups `record[columnIndex[name]]` yields a field. -/
theorem LoadCSV_short_row_rejected (env : Env) (db : DB) (pre rest : List Line)
    (header short : List String)
    (hpre : ∀ l ∈ pre, l = Line.fields []) (hh : header ≠ [])
    (hmem : Line.fields short ∈ rest) (hne : short ≠ [])
    (hlen : short.length < header.length) :
    (∃ e, (LoadCSV env db (some (pre ++ Line.fields header :: rest))).ret = Return.error e) ∧
      (∀ ev ∈ (LoadCSV env db (some (pre ++ Line.fields header :: rest))).log,
        (∃ record r, Line.fields record ∈ rest ∧ record.length = header.length ∧
          parseRecord (buildColumnIndex header) record = Parsed.row r ∧ IsWriteOf r ev) ∨
        (∃ count chapterID, ev = Event.execUpdateChapter count chapterID) ∨
        ev = Event.commit) ∧
      (∀ record, Except.ok record ∈ readAll header.length rest →
        record.length = header.length) ∧
      (∀ name, mapGet 0 (buildColumnIndex header) name < header.length) ∧
      (∀ record, Except.ok record ∈ readAll header.length rest →
        ∀ name, ∃ value, field (buildColumnIndex header) record name = some value) := by
  have hpos : 0 < header.length := List.length_pos.mpr hh
  have hr := readAll_header pre rest header hpre hh
  have hrec : ∀ record, Except.ok record ∈ readAll header.length rest →
      record.length = header.length ∧ Line.fields record ∈ rest :=
    fun record hm => readAll_ok_length header.length hpos rest record hm
  refine ⟨?_, ?_, fun record hm => (hrec record hm).1, columnIndex_lt header hh, ?_⟩
  · cases hret : (LoadCSV env db (some (pre ++ Line.fields header :: rest))).ret with
    | nil =>
      obtain ⟨⟨lines, header1, reads1, h1, h2, h3⟩, _⟩ := LoadCSV_nil env db _ hret
      simp only [Option.some.injEq] at h1
      subst h1
      rw [hr] at h2
      simp only [List.cons.injEq, Except.ok.injEq] at h2
      obtain ⟨h4, h5⟩ := h2
      subst h4 h5
      have herr := readAll_short_error header.length hpos rest short hmem hne (by omega)
      obtain ⟨record, r, h6, _⟩ := h3 _ herr
      cases h6
    | error e => exact ⟨e, rfl⟩
    | indexOutOfRange => exact absurd hret (LoadCSV_in_range env db _)
  · intro ev hev
    rcases LoadCSV_log env db _ ev hev with
      ⟨lines, header1, reads1, record, r, h1, h2, h3, h4, h5⟩ | h1 | h1
    · simp only [Option.some.injEq] at h1
      subst h1
      rw [hr] at h2
      simp only [List.cons.injEq, Except.ok.injEq] at h2
      obtain ⟨h6, h7⟩ := h2
      subst h6 h7
      exact Or.inl ⟨record, r, (hrec record h3).2, (hrec record h3).1, h4, h5⟩
    · exact Or.inr (Or.inl h1)
    · exact Or.inr (Or.inr h1)
  · intro record hm name
    exact field_isSome header record hh (hrec record hm).1 name

/-- C8 at a file whose second data row has three fields under a header of six:
the call fails on reading that row, after the writes of the first row. -/
theorem LoadCSV_short_row_rejected_witness :
    LoadCSV calmEnv emptyDB (some fileShortRow)
        = ⟨Return.error LoadError.readRecord, emptyDB, true,
           [Event.execInsertChapter 1 "Chapter 1",
            Event.execInsertVerse "u0" 1 1 "S1" "T1" "E1" "H1"]⟩ ∧
      ∃ e, (LoadCSV calmEnv emptyDB (some fileShortRow)).ret = Return.error e :=
  ⟨by decide,
   (LoadCSV_short_row_rejected calmEnv emptyDB []
      [Line.fields ["1", "1", "S1", "T1", "E1", "H1"], Line.fields ["1", "2", "S2"]]
      ["chapter", "verse", "sanskrit", "transliteration", "english", "hindi"]
      ["1", "2", "S2"] (by simp) (by simp) (by simp) (by simp) (by decide)).1⟩

theorem effectiveLimit_bounds (limit : Int) :
    1 ≤ effectiveLimit limit ∧ effectiveLimit limit ≤ 100 := by
  unfold effectiveLimit
  split
  · omega
  · split <;> omega

theorem selectVerses_length (verses : List Verse) (column : Verse → String) (pattern : String)
    (limit : Int) (h : 0 ≤ limit) :
    ((selectVerses verses column pattern limit).length : Int) ≤ limit := by
  unfold selectVerses
  rw [List.length_take]
  omega

/-- C9 (search clamp).  `SearchVerses` passes to the store the limit
`effectiveLimit limit`, which is 20 for `limit <= 0`, 100 for `limit > 100`
and `limit` otherwise, hence always between 1 and 100; a successful search
returns at most that many verses: at most 20 for the limits 0 and -3, at most
100 for the limit 500. -/
theorem SearchVerses_limit (fault : Option StoreFault) (verses : List Verse)
    (query lang : String) (limit : Int) :
    (limit ≤ 0 → effectiveLimit limit = 20) ∧
      (100 < limit → effectiveLimit limit = 100) ∧
      (0 < limit → limit ≤ 100 → effectiveLimit limit = limit) ∧
      1 ≤ effectiveLimit limit ∧ effectiveLimit limit ≤ 100 ∧
      (fault = none → SearchVerses fault verses query lang limit
        = Except.ok (selectVerses verses (searchColumn lang) ("%" ++ query ++ "%")
            (effectiveLimit limit))) ∧
      (∀ vs, SearchVerses fault verses query lang limit = Except.ok vs →
        (vs.length : Int) ≤ effectiveLimit limit) ∧
      (∀ vs, SearchVerses fault verses query lang 0 = Except.ok vs → vs.length ≤ 20) ∧
      (∀ vs, SearchVerses fault verses query lang (-3) = Except.ok vs → vs.length ≤ 20) ∧
      (∀ vs, SearchVerses fault verses query lang 500 = Except.ok vs → vs.length ≤ 100) := by
  have hlen : ∀ (l : Int) vs, SearchVerses fault verses query lang l = Except.ok vs →
      (vs.length : Int) ≤ effectiveLimit l := by
    intro l vs h
    unfold SearchVerses at h
    cases fault with
    | some f => simp at h
    | none =>
      simp only [Except.ok.injEq] at h
      rw [← h]
      exact selectVerses_length _ _ _ _ (by have := (effectiveLimit_bounds l).1; omega)
  refine ⟨?_, ?_, ?_, (effectiveLimit_bounds limit).1, (effectiveLimit_bounds limit).2, ?_,
    hlen limit, ?_, ?_, ?_⟩
  · intro h
    simp [effectiveLimit, h]
  · intro h
    have h1 : ¬ limit ≤ 0 := by omega
    simp [effectiveLimit, h, h1]
  · intro h1 h2
    have h3 : ¬ limit ≤ 0 := by omega
    have h4 : ¬ limit > 100 := by omega
    simp [effectiveLimit, h3, h4]
  · intro h
    subst h
    rfl
  · intro vs h
    have := hlen 0 vs h
    have h2 : effectiveLimit 0 = 20 := by decide
    omega
  · intro vs h
    have := hlen (-3) vs h
    have h2 : effectiveLimit (-3) = 20 := by decide
    omega
  · intro vs h
    have := hlen 500 vs h
    have h2 : effectiveLimit 500 = 100 := by decide
    omega

/-- C9 on four stored verses, three of which match the query `h` in the hindi
column: with the limit 2 the search returns the first two in key order. -/
theorem SearchVerses_limit_witness :
    SearchVerses none sampleVerses "h" "hi" 2
        = Except.ok [⟨"c", 1, 1, "", "", "wORLD_x", "h1"⟩, ⟨"b", 1, 2, "", "", "abc", "h2"⟩] ∧
      effectiveLimit 2 = 2 ∧
      ((2 : Nat) : Int) ≤ effectiveLimit 2 :=
  ⟨by decide,
   (SearchVerses_limit none sampleVerses "h" "hi" 2).2.2.1 (by decide) (by decide),
   (SearchVerses_limit none sampleVerses "h" "hi" 2).2.2.2.2.2.2.1
     [⟨"c", 1, 1, "", "", "wORLD_x", "h1"⟩, ⟨"b", 1, 2, "", "", "abc", "h2"⟩] (by decide)⟩

theorem toLower_not_special (c : Char) (h : ¬ likeSpecial c) : ¬ likeSpecial c.toLower := by
  unfold Char.toLower
  simp only
  split
  · rename_i hc
    obtain ⟨h1, h2⟩ := hc
    generalize c.toNat = n at h1 h2
    have h3 : n ≤ 90 := h2
    have h4 : 65 ≤ n := h1
    interval_cases n <;> decide
  · exact h

theorem foldCase_pattern (query : String) :
    foldCase ("%" ++ query ++ "%") = '%' :: (foldCase query ++ ['%']) := by
  unfold foldCase
  simp [String.toList]

theorem likeTokens_literal (l rest : List Char) (h : ∀ c ∈ l, ¬ likeSpecial c) :
    likeTokens (l ++ rest) = l.map LikeTok.lit ++ likeTokens rest := by
  induction l with
  | nil => rfl
  | cons c l ih =>
    have hc := h c (List.mem_cons_self _ _)
    unfold likeSpecial at hc
    simp only [not_or] at hc
    simp only [List.cons_append, List.map_cons]
    rw [likeTokens.eq_def]
    simp only [if_neg hc.2.2, if_neg hc.1, if_neg hc.2.1]
    rw [ih (fun c1 h1 => h c1 (List.mem_cons_of_mem _ h1))]

theorem likeTokens_percent (rest : List Char) :
    likeTokens ('%' :: rest) = LikeTok.anySeq :: likeTokens rest := by
  rw [likeTokens.eq_def]
  simp only [if_neg (show ¬ ('%' = '\\') by decide), if_true]

/-- Literal pattern elements followed by `%` match exactly the texts that
start with the literals. -/
theorem likeMatch_literal_startsWith (l t : List Char) :
    likeMatch (l.map LikeTok.lit ++ [LikeTok.anySeq]) t = true ↔ l <+: t := by
  induction l generalizing t with
  | nil =>
    simp only [List.map_nil, List.nil_append, likeMatch, List.any_eq_true]
    constructor
    · intro _; exact List.nil_prefix
    · intro _; exact ⟨[], by simp, rfl⟩
  | cons c l ih =>
    cases t with
    | nil => simp [likeMatch]
    | cons x t =>
      simp only [List.map_cons, List.cons_append, likeMatch, Bool.and_eq_true,
        decide_eq_true_eq, List.cons_prefix_cons]
      constructor
      · rintro ⟨h1, h2⟩; exact ⟨h1.symm, (ih t).mp h2⟩
      · rintro ⟨h1, h2⟩; exact ⟨h1.symm, (ih t).mpr h2⟩

/-- The pattern `%`, literals, `%` matches exactly the texts that contain the
literals as a contiguous block. -/
theorem likeMatch_literal_contains (l t : List Char) :
    likeMatch (LikeTok.anySeq :: (l.map LikeTok.lit ++ [LikeTok.anySeq])) t = true
      ↔ l <:+: t := by
  simp only [likeMatch, List.any_eq_true, List.mem_tails]
  rw [List.infix_iff_prefix_suffix]
  constructor
  · rintro ⟨s, h1, h2⟩
    exact ⟨s, (likeMatch_literal_startsWith l s).mp h2, h1⟩
  · rintro ⟨s, h1, h2⟩
    exact ⟨s, h2, (likeMatch_literal_startsWith l s).mpr h1⟩


/-- A search pattern `%query%` never ends in a backslash that escapes nothing:
its last character is `%`. -/
theorem endsInEscape_search_pattern (l : List Char) : endsInEscape (l ++ ['%']) = false := by
  have key : ∀ n (l : List Char), l.length ≤ n → endsInEscape (l ++ ['%']) = false := by
    intro n
    induction n with
    | zero =>
      intro l hl
      have : l = [] := List.length_eq_zero.mp (by omega)
      subst this
      decide
    | succ n ih =>
      intro l hl
      cases l with
      | nil => decide
      | cons c l =>
        simp only [List.length_cons] at hl
        simp only [List.cons_append]
        rw [endsInEscape.eq_def]
        simp only
        split
        · cases l with
          | nil => simp [endsInEscape]
          | cons d l =>
            simp only [List.cons_append]
            exact ih l (by simp only [List.length_cons] at hl; omega)
        · exact ih l (by omega)
  exact key l.length l (Nat.le_refl _)

theorem likeTokens_search_pattern (query : String)
    (hq : ∀ c ∈ query.toList, ¬ likeSpecial c) :
    likeTokens (foldCase ("%" ++ query ++ "%"))
      = LikeTok.anySeq :: ((foldCase query).map LikeTok.lit ++ [LikeTok.anySeq]) := by
  have hfold : ∀ c ∈ foldCase query, ¬ likeSpecial c := by
    intro c hc
    unfold foldCase at hc
    obtain ⟨c0, h0, h1⟩ := List.mem_map.mp hc
    rw [← h1]
    exact toLower_not_special c0 (hq c0 h0)
  rw [foldCase_pattern, likeTokens_percent, likeTokens_literal _ _ hfold, likeTokens_percent]
  rfl

/-- For a query without `%`, `_` and backslash, `ILIKE '%query%'` is the
case-insensitive substring test. -/
theorem ILIKE_search_pattern (query text : String)
    (hq : ∀ c ∈ query.toList, ¬ likeSpecial c) :
    ILIKE text ("%" ++ query ++ "%") = true ↔ containsFold query text := by
  unfold ILIKE containsFold
  rw [likeTokens_search_pattern query hq]
  exact likeMatch_literal_contains _ _

theorem filter_ILIKE_eq (verses : List Verse) (query lang : String)
    (hq : ∀ c ∈ query.toList, ¬ likeSpecial c) (hlang : lang = "en" ∨ lang = "hi") :
    verses.filter (fun v => ILIKE (searchColumn lang v) ("%" ++ query ++ "%"))
      = verses.filter (fun v => decide (matchesQuery query lang v)) := by
  apply List.filter_congr
  intro v _
  have h := ILIKE_search_pattern query (searchColumn lang v) hq
  rcases hlang with h1 | h1
  · subst h1
    have h2 : searchColumn "en" v = v.English := by simp [searchColumn]
    rw [h2] at h
    by_cases hc : containsFold query v.English
    · simp [matchesQuery, hc, h2, h.mpr hc]
    · have : ILIKE v.English ("%" ++ query ++ "%") = false := by
        cases hx : ILIKE v.English ("%" ++ query ++ "%") with
        | false => rfl
        | true => exact absurd (h.mp hx) hc
      simp [matchesQuery, hc, h2, this]
  · subst h1
    have h2 : searchColumn "hi" v = v.Hindi := by simp [searchColumn]
    rw [h2] at h
    by_cases hc : containsFold query v.Hindi
    · simp [matchesQuery, hc, h2, h.mpr hc]
    · have : ILIKE v.Hindi ("%" ++ query ++ "%") = false := by
        cases hx : ILIKE v.Hindi ("%" ++ query ++ "%") with
        | false => rfl
        | true => exact absurd (h.mp hx) hc
      simp [matchesQuery, hc, h2, this]

/-- Searches with a query free of pattern characters.  For every query that
contains none of the characters `%`, `_` and backslash, every language among
`en` and `hi` and every list of stored verses, a search that the store
answers returns the verses whose english text (for `en`) or hindi text (for
`hi`) contains the query as a substring, case of `A`-`Z` ignored: these
verses in ascending `(chapter_id, verse_number)` order, cut after
`effectiveLimit limit` verses.  Without a store failure the search does
return a result. -/
theorem SearchVerses_plain_query (fault : Option StoreFault) (verses : List Verse)
    (query lang : String) (limit : Int)
    (hq : ∀ c ∈ query.toList, ¬ likeSpecial c) (hlang : lang = "en" ∨ lang = "hi") :
    (fault = none → ∃ vs, SearchVerses fault verses query lang limit = Except.ok vs) ∧
      ∀ vs, SearchVerses fault verses query lang limit = Except.ok vs →
        ∃ found : List Verse,
          found.Perm (verses.filter (fun v => decide (matchesQuery query lang v))) ∧
          found.Sorted keyLE ∧
          vs = found.take (effectiveLimit limit).toNat := by
  constructor
  · intro hf
    subst hf
    exact ⟨_, rfl⟩
  · intro vs h
    unfold SearchVerses at h
    cases fault with
    | some f => simp at h
    | none =>
      simp only [Except.ok.injEq] at h
      unfold selectVerses at h
      rw [filter_ILIKE_eq verses query lang hq hlang] at h
      exact ⟨_, List.perm_insertionSort keyLE _, List.sorted_insertionSort keyLE _, h.symm⟩

/-- The plain query `WORLD` on the sample verses matches `wORLD_x` and
`Hello World`; with the limit 1 the search returns the first in key order. -/
theorem SearchVerses_plain_query_witness :
    SearchVerses none sampleVerses "WORLD" "en" 1
        = Except.ok [⟨"c", 1, 1, "", "", "wORLD_x", "h1"⟩] ∧
      ∃ found : List Verse,
        found.Perm (sampleVerses.filter (fun v => decide (matchesQuery "WORLD" "en" v))) ∧
        found.Sorted keyLE ∧
        [(⟨"c", 1, 1, "", "", "wORLD_x", "h1"⟩ : Verse)] = found.take (effectiveLimit 1).toNat :=
  ⟨by decide,
   (SearchVerses_plain_query none sampleVerses "WORLD" "en" 1 (by decide) (Or.inl rfl)).2
     [⟨"c", 1, 1, "", "", "wORLD_x", "h1"⟩] (by decide)⟩

/-- C10 (search result), evaluated on two queries that hold a pattern
character.  The query `a_c` is not a substring of the english text `abc`, in
any case, yet the search returns that verse, because `_` in the pattern
`%a_c%` stands for any one character; the query `%` is a substring of none
of the four english texts, one of which is empty, yet the search returns all
four. -/
theorem SearchVerses_underscore_is_wildcard :
    SearchVerses none sampleVerses "a_c" "en" 20
        = Except.ok [⟨"b", 1, 2, "", "", "abc", "h2"⟩] ∧
      ¬ containsFold "a_c" "abc" ∧
      SearchVerses none sampleVerses "%" "en" 20
        = Except.ok
            [⟨"c", 1, 1, "", "", "wORLD_x", "h1"⟩,
             ⟨"b", 1, 2, "", "", "abc", "h2"⟩,
             ⟨"d", 1, 3, "", "", "", "h3"⟩,
             ⟨"a", 2, 1, "", "", "Hello World", "namaste"⟩] ∧
      (∀ v ∈ sampleVerses, ¬ containsFold "%" v.English) := by
  decide

/-! ### Projections of the pass state -/

theorem applyRow_tx (env : Env) (st : TxState) (r : Row) :
    (applyRow env st r).tx
      = ⟨addChapter st.tx.chapters r.chapterNum,
         upsertVerse st.tx.verses (env.uuid st.uuids) r⟩ := by
  unfold applyRow insertVerseStmt insertChapterStmt addChapter upsertVerse overwrite
  by_cases h1 : (st.tx.chapters.any fun ch => decide (ch.ID = r.chapterNum)) = true
  · by_cases h2 : st.tx.verses.any (hasKey r.chapterNum r.verseNum) = true
    · simp [h1, h2]
    · simp [h1, h2]
  · by_cases h2 : st.tx.verses.any (hasKey r.chapterNum r.verseNum) = true
    · simp [h1, h2]
    · simp [h1, h2]

theorem foldl_applyRow_chapters (env : Env) (rows : List Row) (st : TxState) :
    (rows.foldl (applyRow env) st).tx.chapters
      = rows.foldl (fun chs r => addChapter chs r.chapterNum) st.tx.chapters := by
  induction rows generalizing st with
  | nil => rfl
  | cons r rows ih =>
    simp only [List.foldl_cons]
    rw [ih, applyRow_tx]

theorem foldl_applyRow_counts (env : Env) (rows : List Row) (st : TxState) :
    (rows.foldl (applyRow env) st).chapterVerseCounts
      = rows.foldl countRow st.chapterVerseCounts := by
  induction rows generalizing st with
  | nil => rfl
  | cons r rows ih =>
    simp only [List.foldl_cons]
    rw [ih]
    rfl

theorem foldl_applyUpdate_verses (m : List (Int × Int)) (st : TxState) :
    (m.foldl applyUpdate st).tx.verses = st.tx.verses := by
  induction m generalizing st with
  | nil => rfl
  | cons kv m ih =>
    simp only [List.foldl_cons]
    rw [ih]
    rfl

theorem foldl_applyUpdate_chapters (m : List (Int × Int)) (st : TxState) :
    (m.foldl applyUpdate st).tx.chapters
      = m.foldl (fun chs kv => (updateChapterStmt ⟨chs, []⟩ kv.2 kv.1).chapters)
          st.tx.chapters := by
  induction m generalizing st with
  | nil => rfl
  | cons kv m ih =>
    simp only [List.foldl_cons]
    rw [ih]
    rfl

/-! ### Go map facts -/

theorem mapGet_mapSet {κ ν : Type} [DecidableEq κ] (zero : ν) (m : List (κ × ν)) (k : κ) (v : ν)
    (x : κ) : mapGet zero (mapSet m k v) x = if k = x then v else mapGet zero m x := by
  induction m with
  | nil => simp [mapSet, mapGet]
  | cons e rest ih =>
    obtain ⟨k1, v1⟩ := e
    unfold mapSet
    by_cases hk : k1 = k
    · subst hk
      simp only [if_true, mapGet]
      by_cases h1 : k1 = x <;> simp [h1]
    · rw [if_neg hk]
      simp only [mapGet, ih]
      by_cases h1 : k1 = x
      · subst h1
        simp [Ne.symm hk]
      · simp [h1]

theorem mapSet_keys_nodup {κ ν : Type} [DecidableEq κ] (m : List (κ × ν)) (k : κ) (v : ν)
    (h : (m.map Prod.fst).Nodup) : ((mapSet m k v).map Prod.fst).Nodup := by
  induction m with
  | nil => simp [mapSet]
  | cons e rest ih =>
    obtain ⟨k1, v1⟩ := e
    simp only [List.map_cons, List.nodup_cons] at h
    unfold mapSet
    by_cases hk : k1 = k
    · subst hk
      simpa using h
    · rw [if_neg hk]
      simp only [List.map_cons, List.nodup_cons]
      refine ⟨?_, ih h.2⟩
      rw [mem_keys_mapSet]
      intro h1
      rcases h1 with h1 | h1
      · exact hk h1
      · exact h.1 h1

theorem mapGet_of_mem {κ ν : Type} [DecidableEq κ] (zero : ν) (m : List (κ × ν)) (k : κ) (v : ν)
    (hn : (m.map Prod.fst).Nodup) (h : (k, v) ∈ m) : mapGet zero m k = v := by
  induction m with
  | nil => cases h
  | cons e rest ih =>
    obtain ⟨k1, v1⟩ := e
    simp only [List.map_cons, List.nodup_cons] at hn
    unfold mapGet
    rcases List.mem_cons.mp h with h1 | h1
    · simp only [Prod.mk.injEq] at h1
      simp [h1.1, h1.2]
    · have hk : k1 ≠ k := by
        intro hk
        subst hk
        exact hn.1 (List.mem_map.mpr ⟨(k1, v), h1, rfl⟩)
      rw [if_neg hk]
      exact ih hn.2 h1

theorem mem_of_mem_keys {κ ν : Type} [DecidableEq κ] (zero : ν) (m : List (κ × ν)) (k : κ)
    (h : k ∈ m.map Prod.fst) : (k, mapGet zero m k) ∈ m := by
  induction m with
  | nil => simp at h
  | cons e rest ih =>
    obtain ⟨k1, v1⟩ := e
    unfold mapGet
    by_cases hk : k1 = k
    · subst hk
      simp
    · rw [if_neg hk]
      simp only [List.map_cons, List.mem_cons] at h
      rcases h with h | h
      · exact absurd h.symm hk
      · exact List.mem_cons_of_mem _ (ih h)

/-- Two Go maps with the same entries give the same lookups. -/
theorem mapGet_perm {κ ν : Type} [DecidableEq κ] (zero : ν) (m1 m2 : List (κ × ν))
    (hp : m1.Perm m2) (hn : (m2.map Prod.fst).Nodup) (k : κ) :
    mapGet zero m1 k = mapGet zero m2 k := by
  have hn1 : (m1.map Prod.fst).Nodup := ((hp.map Prod.fst).nodup_iff).mpr hn
  by_cases hk : k ∈ m2.map Prod.fst
  · have h2 := mem_of_mem_keys zero m2 k hk
    exact mapGet_of_mem zero m1 k _ hn1 (hp.mem_iff.mpr h2)
  · have hk1 : k ∉ m1.map Prod.fst := fun h => hk (((hp.map Prod.fst).mem_iff).mp h)
    rw [mapGet_of_not_mem zero m1 k hk1, mapGet_of_not_mem zero m2 k hk]

/-! ### The pass counters -/

theorem countRow_keys_nodup (rows : List Row) (m : List (Int × Int))
    (h : (m.map Prod.fst).Nodup) : ((rows.foldl countRow m).map Prod.fst).Nodup := by
  induction rows generalizing m with
  | nil => exact h
  | cons r rows ih =>
    simp only [List.foldl_cons]
    exact ih _ (mapSet_keys_nodup m _ _ h)

theorem countRow_mem_keys (rows : List Row) (m : List (Int × Int)) (c : Int) :
    c ∈ (rows.foldl countRow m).map Prod.fst
      ↔ c ∈ m.map Prod.fst ∨ ∃ r ∈ rows, r.chapterNum = c := by
  induction rows generalizing m with
  | nil => simp
  | cons r rows ih =>
    simp only [List.foldl_cons, ih, countRow, mem_keys_mapSet, List.mem_cons]
    constructor
    · rintro ((h | h) | ⟨r1, h1, h2⟩)
      · exact Or.inr ⟨r, Or.inl rfl, h.symm⟩
      · exact Or.inl h
      · exact Or.inr ⟨r1, Or.inr h1, h2⟩
    · rintro (h | ⟨r1, h1 | h1, h2⟩)
      · exact Or.inl (Or.inr h)
      · subst h1; exact Or.inl (Or.inl h2.symm)
      · exact Or.inr ⟨r1, h1, h2⟩

/-- The counter of chapter `c` grows by the number of rows of that chapter. -/
theorem countRow_get (rows : List Row) (m : List (Int × Int)) (c : Int) :
    mapGet 0 (rows.foldl countRow m) c
      = mapGet 0 m c + ((rows.filter (fun r => r.chapterNum = c)).length : Int) := by
  induction rows generalizing m with
  | nil => simp
  | cons r rows ih =>
    simp only [List.foldl_cons, ih, countRow, mapGet_mapSet]
    by_cases h : r.chapterNum = c
    · subst h
      simp [List.filter_cons]
      omega
    · simp [List.filter_cons, h]

/-! ### The `verse_count` updates -/

theorem setCount_ID (m : List (Int × Int)) (ch : Chapter) : (setCount m ch).ID = ch.ID := by
  unfold setCount
  split <;> rfl

theorem setCount_nil (ch : Chapter) : setCount [] ch = ch := by
  simp [setCount]

theorem updateChapterStmt_chapters (chs : List Chapter) (vs : List Verse) (count chapterID : Int) :
    (updateChapterStmt ⟨chs, vs⟩ count chapterID).chapters
      = chs.map (setCount [(chapterID, count)]) := by
  unfold updateChapterStmt
  simp only
  apply List.map_congr_left
  intro ch _
  unfold setCount
  by_cases h : ch.ID = chapterID
  · simp [h, mapGet]
  · simp [h]

theorem setCount_cons (k n : Int) (rest : List (Int × Int)) (hk : k ∉ rest.map Prod.fst)
    (ch : Chapter) :
    setCount rest (setCount [(k, n)] ch) = setCount ((k, n) :: rest) ch := by
  by_cases h : ch.ID = k
  · have h1 : setCount [(k, n)] ch
        = ⟨ch.ID, ch.NameEN, ch.NameHI, ch.SummaryEN, ch.SummaryHI, n⟩ := by
      simp [setCount, h, mapGet]
    rw [h1]
    have h2 : ch.ID ∉ rest.map Prod.fst := by rw [h]; exact hk
    unfold setCount
    simp only [List.map_cons, List.mem_cons, h, true_or, if_true, mapGet]
    rw [if_neg (by rw [← h]; exact h2)]
  · have h1 : setCount [(k, n)] ch = ch := by
      simp [setCount, h]
    rw [h1]
    have hne : ¬ k = ch.ID := fun e => h e.symm
    unfold setCount
    simp only [List.map_cons, List.mem_cons, h, false_or, mapGet, if_neg hne]

/-- The updates of loader.go:112-116, run over a map without repeated keys,
give every chapter the count stored under its id. -/
theorem foldl_update_eq_map (m : List (Int × Int)) (chs : List Chapter)
    (hn : (m.map Prod.fst).Nodup) :
    m.foldl (fun chs kv => (updateChapterStmt ⟨chs, []⟩ kv.2 kv.1).chapters) chs
      = chs.map (setCount m) := by
  induction m generalizing chs with
  | nil =>
    have hid : setCount [] = id := funext setCount_nil
    simp [hid]
  | cons kv rest ih =>
    obtain ⟨k, n⟩ := kv
    simp only [List.map_cons, List.nodup_cons] at hn
    simp only [List.foldl_cons]
    rw [ih _ hn.2, updateChapterStmt_chapters, List.map_map]
    apply List.map_congr_left
    intro ch _
    exact setCount_cons k n rest hn.1 ch

theorem setCount_perm (m1 m2 : List (Int × Int)) (hp : m1.Perm m2)
    (hn : (m2.map Prod.fst).Nodup) (ch : Chapter) : setCount m1 ch = setCount m2 ch := by
  unfold setCount
  have hmem : ch.ID ∈ m1.map Prod.fst ↔ ch.ID ∈ m2.map Prod.fst := (hp.map Prod.fst).mem_iff
  rw [mapGet_perm 0 m1 m2 hp hn ch.ID]
  by_cases h : ch.ID ∈ m2.map Prod.fst
  · rw [if_pos h, if_pos (hmem.mpr h)]
  · rw [if_neg h, if_neg (fun h1 => h (hmem.mp h1))]

theorem setCount_idem (m : List (Int × Int)) (ch : Chapter) :
    setCount m (setCount m ch) = setCount m ch := by
  unfold setCount
  by_cases h : ch.ID ∈ m.map Prod.fst
  · simp [h]
  · simp [h]

/-- The rows a pass commits: the chapters inserted for the rows, each with
the count of its counter entry, and the verses as upserted. -/
theorem passState_tx (env : Env) (db : DB) (rows : List Row) :
    (passState env db rows).tx
      = ⟨(rows.foldl (fun chs r => addChapter chs r.chapterNum) db.chapters).map
            (setCount (rows.foldl countRow [])),
         (rows.foldl (applyRow env) ⟨db, [], 0, 0, []⟩).tx.verses⟩ := by
  have hn : ((rows.foldl countRow []).map Prod.fst).Nodup :=
    countRow_keys_nodup rows [] (by simp)
  have hc := foldl_applyRow_counts env rows ⟨db, [], 0, 0, []⟩
  simp only at hc
  have hperm := env.rangeOrder_perm (rows.foldl countRow [])
  have hn1 : ((env.rangeOrder (rows.foldl countRow [])).map Prod.fst).Nodup :=
    ((hperm.map Prod.fst).nodup_iff).mpr hn
  have h1 : (passState env db rows).tx.verses
      = (rows.foldl (applyRow env) ⟨db, [], 0, 0, []⟩).tx.verses := by
    unfold passState
    rw [foldl_applyUpdate_verses]
  have h2 : (passState env db rows).tx.chapters
      = (rows.foldl (fun chs r => addChapter chs r.chapterNum) db.chapters).map
          (setCount (rows.foldl countRow [])) := by
    unfold passState
    rw [foldl_applyUpdate_chapters, hc, foldl_update_eq_map _ _ hn1, foldl_applyRow_chapters]
    apply List.map_congr_left
    intro ch _
    exact setCount_perm _ _ hperm hn ch
  cases hx : (passState env db rows).tx with
  | mk chs vs =>
    rw [hx] at h1 h2
    simp only at h1 h2
    rw [h1, h2]

/-! ### Natural keys of the verses table -/

theorem hasKey_iff (c n : Int) (v : Verse) : hasKey c n v = true ↔ vkey v = (c, n) := by
  simp [hasKey, vkey]

theorem any_hasKey_iff (vs : List Verse) (r : Row) :
    vs.any (hasKey r.chapterNum r.verseNum) = true ↔ r.key ∈ vs.map vkey := by
  simp only [List.any_eq_true, List.mem_map, hasKey_iff, Row.key]

theorem overwrite_vkey (r : Row) (v : Verse) : vkey (overwrite r v) = vkey v := by
  unfold overwrite
  split <;> rfl

theorem overwrite_ID (r : Row) (v : Verse) : (overwrite r v).ID = v.ID := by
  unfold overwrite
  split <;> rfl

theorem upsertVerse_keys (vs : List Verse) (id : String) (r : Row) :
    (upsertVerse vs id r).map vkey = addKey (vs.map vkey) r.key := by
  unfold upsertVerse addKey
  by_cases h : vs.any (hasKey r.chapterNum r.verseNum) = true
  · rw [if_pos h, if_pos ((any_hasKey_iff vs r).mp h), List.map_map]
    apply List.map_congr_left
    intro v _
    exact overwrite_vkey r v
  · rw [if_neg h, if_neg (fun h1 => h ((any_hasKey_iff vs r).mpr h1))]
    simp [vkey, Row.key]

theorem foldl_applyRow_keys (env : Env) (rows : List Row) (st : TxState) :
    (rows.foldl (applyRow env) st).tx.verses.map vkey
      = rows.foldl (fun ks r => addKey ks r.key) (st.tx.verses.map vkey) := by
  induction rows generalizing st with
  | nil => rfl
  | cons r rows ih =>
    simp only [List.foldl_cons]
    rw [ih, applyRow_tx, upsertVerse_keys]

theorem addKey_nodup (ks : List (Int × Int)) (k : Int × Int) (h : ks.Nodup) :
    (addKey ks k).Nodup := by
  unfold addKey
  split
  · exact h
  · rename_i hk
    exact List.Nodup.append h (List.nodup_singleton k) (by
      intro x hx hx1
      rw [List.mem_singleton] at hx1
      subst hx1
      exact hk hx)

theorem mem_addKey (ks : List (Int × Int)) (k x : Int × Int) :
    x ∈ addKey ks k ↔ x ∈ ks ∨ x = k := by
  unfold addKey
  split
  · rename_i hk
    constructor
    · exact Or.inl
    · rintro (h | h)
      · exact h
      · subst h; exact hk
  · simp

theorem foldl_addKey_nodup (rows : List Row) (ks : List (Int × Int)) (h : ks.Nodup) :
    (rows.foldl (fun ks r => addKey ks r.key) ks).Nodup := by
  induction rows generalizing ks with
  | nil => exact h
  | cons r rows ih => exact ih _ (addKey_nodup ks r.key h)

theorem mem_foldl_addKey (rows : List Row) (ks : List (Int × Int)) (x : Int × Int) :
    x ∈ rows.foldl (fun ks r => addKey ks r.key) ks ↔ x ∈ ks ∨ x ∈ rows.map Row.key := by
  induction rows generalizing ks with
  | nil => simp
  | cons r rows ih =>
    simp only [List.foldl_cons, ih, mem_addKey, List.map_cons, List.mem_cons]
    tauto

theorem foldl_addKey_filter (rows : List Row) (ks : List (Int × Int)) (c : Int)
    (h : ∀ r ∈ rows, r.chapterNum ≠ c) :
    (rows.foldl (fun ks r => addKey ks r.key) ks).filter (fun k => k.1 = c)
      = ks.filter (fun k => k.1 = c) := by
  induction rows generalizing ks with
  | nil => rfl
  | cons r rows ih =>
    simp only [List.foldl_cons]
    rw [ih _ (fun r1 h1 => h r1 (List.mem_cons_of_mem _ h1))]
    unfold addKey
    split
    · rfl
    · have hr := h r (List.mem_cons_self _ _)
      simp [List.filter_append, Row.key, hr]

theorem verseRows_eq_keys (db : DB) (c : Int) :
    verseRows db c = ((db.verses.map vkey).filter (fun k => k.1 = c)).length := by
  unfold verseRows
  rw [List.filter_map, List.length_map]
  rfl

theorem rows_filter_length (rows : List Row) (c : Int) :
    ((rows.map Row.key).filter (fun k => k.1 = c)).length
      = (rows.filter (fun r => r.chapterNum = c)).length := by
  rw [List.filter_map, List.length_map]
  rfl

/-! ### Chapters inserted by a pass -/

theorem mem_foldl_addChapter (rows : List Row) (chs : List Chapter) (ch : Chapter)
    (h : ch ∈ rows.foldl (fun chs r => addChapter chs r.chapterNum) chs) :
    ch ∈ chs ∨ ∃ r ∈ rows, r.chapterNum = ch.ID := by
  induction rows generalizing chs with
  | nil => exact Or.inl h
  | cons r rows ih =>
    simp only [List.foldl_cons] at h
    rcases ih _ h with h1 | ⟨r1, h2, h3⟩
    · unfold addChapter at h1
      split at h1
      · exact Or.inl h1
      · rcases List.mem_append.mp h1 with h4 | h4
        · exact Or.inl h4
        · rw [List.mem_singleton] at h4
          subst h4
          exact Or.inr ⟨r, List.mem_cons_self _ _, rfl⟩
    · exact Or.inr ⟨r1, List.mem_cons_of_mem _ h2, h3⟩

theorem foldl_addChapter_filter (rows : List Row) (chs : List Chapter) (c : Int)
    (h : ∀ r ∈ rows, r.chapterNum ≠ c) :
    (rows.foldl (fun chs r => addChapter chs r.chapterNum) chs).filter (fun ch => ch.ID = c)
      = chs.filter (fun ch => ch.ID = c) := by
  induction rows generalizing chs with
  | nil => rfl
  | cons r rows ih =>
    simp only [List.foldl_cons]
    rw [ih _ (fun r1 h1 => h r1 (List.mem_cons_of_mem _ h1))]
    unfold addChapter
    split
    · rfl
    · have hr := h r (List.mem_cons_self _ _)
      simp [List.filter_append, hr]

theorem map_setCount_filter (m : List (Int × Int)) (chs : List Chapter) (c : Int)
    (hc : c ∉ m.map Prod.fst) :
    (chs.map (setCount m)).filter (fun ch => ch.ID = c) = chs.filter (fun ch => ch.ID = c) := by
  induction chs with
  | nil => rfl
  | cons ch chs ih =>
    simp only [List.map_cons, List.filter_cons, setCount_ID, ih]
    by_cases h : ch.ID = c
    · have h1 : setCount m ch = ch := by
        unfold setCount
        rw [if_neg (by rw [h]; exact hc)]
      simp [h, h1]
    · simp [h]

theorem overwrite_ChapterID (r : Row) (v : Verse) :
    (overwrite r v).ChapterID = v.ChapterID := by
  unfold overwrite
  split <;> rfl

theorem overwrite_other_chapter (r : Row) (v : Verse) (h : r.chapterNum ≠ v.ChapterID) :
    overwrite r v = v := by
  unfold overwrite
  have hk : ¬ hasKey r.chapterNum r.verseNum v = true := by
    intro hk
    rw [hasKey_iff] at hk
    simp only [vkey, Prod.mk.injEq] at hk
    exact h hk.1.symm
  rw [if_neg hk]

theorem map_overwrite_filter_other (vs : List Verse) (r : Row) (c : Int)
    (h : r.chapterNum ≠ c) :
    (vs.map (overwrite r)).filter (fun v => v.ChapterID = c)
      = vs.filter (fun v => v.ChapterID = c) := by
  induction vs with
  | nil => rfl
  | cons v vs ih =>
    simp only [List.map_cons, List.filter_cons, overwrite_ChapterID, ih]
    by_cases hv : v.ChapterID = c
    · rw [overwrite_other_chapter r v (by rw [hv]; exact h)]
    · simp [hv]

/-- The upsert of a row leaves the verse rows of every other chapter as they
are. -/
theorem upsertVerse_filter_other (vs : List Verse) (id : String) (r : Row) (c : Int)
    (h : r.chapterNum ≠ c) :
    (upsertVerse vs id r).filter (fun v => v.ChapterID = c)
      = vs.filter (fun v => v.ChapterID = c) := by
  unfold upsertVerse
  split
  · exact map_overwrite_filter_other vs r c h
  · simp [List.filter_append, h]

theorem foldl_applyRow_verses_filter (env : Env) (rows : List Row) (st : TxState) (c : Int)
    (h : ∀ r ∈ rows, r.chapterNum ≠ c) :
    (rows.foldl (applyRow env) st).tx.verses.filter (fun v => v.ChapterID = c)
      = st.tx.verses.filter (fun v => v.ChapterID = c) := by
  induction rows generalizing st with
  | nil => rfl
  | cons r rows ih =>
    simp only [List.foldl_cons]
    rw [ih _ (fun r1 h1 => h r1 (List.mem_cons_of_mem _ h1)), applyRow_tx]
    exact upsertVerse_filter_other _ _ r c (h r (List.mem_cons_self _ _))

/-- C2 (aggregate consistency), as amended.  Let the store satisfy the
uniqueness constraint on `(chapter_id, verse_number)` and have every
`verse_count` equal to the chapter's number of verse rows; let the source
have no two rows with the same natural key and, for every chapter it
mentions, a row for each verse of that chapter already stored.  Then after
`LoadCSV` returns nil every chapter's `verse_count` equals the number of verse
rows with its id, and for a chapter id the source does not mention the
chapter rows (their `verse_count` included) and the verse rows, hence their
number, are those from before the call. -/
theorem LoadCSV_verse_count_consistent (env : Env) (db : DB) (file : Option (List Line))
    (hkeys : KeysUnique db) (hinv : Consistent db)
    (hok : (LoadCSV env db file).ret = Return.nil)
    (hnodup : ((sourceRows file).map Row.key).Nodup)
    (hcover : ∀ v ∈ db.verses, (∃ r ∈ sourceRows file, r.chapterNum = v.ChapterID) →
      vkey v ∈ (sourceRows file).map Row.key) :
    Consistent (LoadCSV env db file).committed ∧
      ∀ c, (∀ r ∈ sourceRows file, r.chapterNum ≠ c) →
        (LoadCSV env db file).committed.chapters.filter (fun ch => ch.ID = c)
            = db.chapters.filter (fun ch => ch.ID = c) ∧
          (LoadCSV env db file).committed.verses.filter (fun v => v.ChapterID = c)
            = db.verses.filter (fun v => v.ChapterID = c) ∧
          verseRows (LoadCSV env db file).committed c = verseRows db c := by
  obtain ⟨_, hload⟩ := LoadCSV_nil env db file hok
  rw [hload]
  simp only
  generalize sourceRows file = rows at hnodup hcover
  rw [passState_tx]
  have hvk := foldl_applyRow_keys env rows ⟨db, [], 0, 0, []⟩
  simp only at hvk
  -- verse rows of a chapter the source does not mention
  have hother : ∀ c, (∀ r ∈ rows, r.chapterNum ≠ c) →
      verseRows ⟨(rows.foldl (fun chs r => addChapter chs r.chapterNum) db.chapters).map
            (setCount (rows.foldl countRow [])),
          (rows.foldl (applyRow env) ⟨db, [], 0, 0, []⟩).tx.verses⟩ c = verseRows db c := by
    intro c hc
    rw [verseRows_eq_keys, verseRows_eq_keys]
    simp only
    rw [hvk, foldl_addKey_filter rows _ c hc]
  -- verse rows of a chapter the source mentions
  have hmentioned : ∀ c, (∃ r ∈ rows, r.chapterNum = c) →
      verseRows ⟨(rows.foldl (fun chs r => addChapter chs r.chapterNum) db.chapters).map
            (setCount (rows.foldl countRow [])),
          (rows.foldl (applyRow env) ⟨db, [], 0, 0, []⟩).tx.verses⟩ c
        = (rows.filter (fun r => r.chapterNum = c)).length := by
    intro c hc
    rw [verseRows_eq_keys, ← rows_filter_length]
    simp only
    rw [hvk]
    apply List.Perm.length_eq
    rw [List.perm_ext_iff_of_nodup
      ((foldl_addKey_nodup rows _ hkeys).filter _) (hnodup.filter _)]
    intro k
    simp only [List.mem_filter, mem_foldl_addKey, decide_eq_true_eq]
    constructor
    · rintro ⟨h1 | h1, h2⟩
      · obtain ⟨v, hv, hvk1⟩ := List.mem_map.mp h1
        have hch : v.ChapterID = c := by rw [← h2, ← hvk1]; rfl
        have := hcover v hv (by rw [hch]; exact hc)
        rw [hvk1] at this
        exact ⟨this, h2⟩
      · exact ⟨h1, h2⟩
    · rintro ⟨h1, h2⟩
      exact ⟨Or.inr h1, h2⟩
  have hckeys : ∀ c, c ∈ (rows.foldl countRow []).map Prod.fst ↔ ∃ r ∈ rows, r.chapterNum = c := by
    intro c
    rw [countRow_mem_keys]
    simp
  refine ⟨?_, ?_⟩
  · intro ch1 hch1
    simp only at hch1
    obtain ⟨ch, hch, hset⟩ := List.mem_map.mp hch1
    have hid : ch1.ID = ch.ID := by rw [← hset, setCount_ID]
    by_cases hm : ∃ r ∈ rows, r.chapterNum = ch.ID
    · rw [hid, hmentioned ch.ID hm, ← hset]
      unfold setCount
      rw [if_pos ((hckeys ch.ID).mpr hm)]
      simp only
      rw [countRow_get]
      simp [mapGet]
    · have hnot : ∀ r ∈ rows, r.chapterNum ≠ ch.ID := fun r hr he => hm ⟨r, hr, he⟩
      have hsame : setCount (rows.foldl countRow []) ch = ch := by
        unfold setCount
        rw [if_neg (fun h => hm ((hckeys ch.ID).mp h))]
      rw [hsame] at hset
      subst hset
      rw [hother ch.ID hnot]
      rcases mem_foldl_addChapter rows db.chapters ch hch with h1 | h1
      · exact hinv ch h1
      · exact absurd h1 hm
  · intro c hc
    refine ⟨?_, foldl_applyRow_verses_filter env rows ⟨db, [], 0, 0, []⟩ c hc, hother c hc⟩
    simp only
    rw [map_setCount_filter _ _ c (fun h => by
      obtain ⟨r, hr, he⟩ := (hckeys c).mp h
      exact hc r hr he)]
    exact foldl_addChapter_filter rows db.chapters c hc

/-- C2 as stated fails: the store holds chapter 1 with its two verses and
`verse_count = 2`; loading a file whose only row is verse (1, 3) succeeds and
leaves chapter 1 with three verse rows and `verse_count = 1`, the number of
rows of this pass. -/
theorem LoadCSV_recount_ignores_stored_verses :
    KeysUnique dbTwoChapters ∧ Consistent dbTwoChapters ∧
      (LoadCSV calmEnv dbTwoChapters (some fileVerseThree)).ret = Return.nil ∧
      (LoadCSV calmEnv dbTwoChapters (some fileVerseThree)).committed
        = ⟨[⟨1, "Chapter 1", "", "", "", 1⟩, ⟨2, "Chapter 2", "", "", "", 1⟩],
           [⟨"id-1-1", 1, 1, "S11", "T11", "E11", "H11"⟩,
            ⟨"id-1-2", 1, 2, "S12", "T12", "E12", "H12"⟩,
            ⟨"id-2-1", 2, 1, "S21", "T21", "E21", "H21"⟩,
            ⟨"u0", 1, 3, "S13", "T13", "E13", "H13"⟩]⟩ ∧
      ¬ Consistent (LoadCSV calmEnv dbTwoChapters (some fileVerseThree)).committed := by
  decide

/-- C2 amended, on a store with chapters 1 and 2 and a file with the three
verses of chapter 1: afterwards chapter 1 counts 3, chapter 2 still counts 1
and its verse row is untouched. -/
theorem LoadCSV_verse_count_consistent_witness :
    (LoadCSV calmEnv dbTwoChapters (some fileChapterOne)).committed
        = ⟨[⟨1, "Chapter 1", "", "", "", 3⟩, ⟨2, "Chapter 2", "", "", "", 1⟩],
           [⟨"id-1-1", 1, 1, "S11", "T11", "E11", "H11"⟩,
            ⟨"id-1-2", 1, 2, "S12x", "T12x", "E12x", "H12x"⟩,
            ⟨"id-2-1", 2, 1, "S21", "T21", "E21", "H21"⟩,
            ⟨"u2", 1, 3, "S13", "T13", "E13", "H13"⟩]⟩ ∧
      Consistent (LoadCSV calmEnv dbTwoChapters (some fileChapterOne)).committed ∧
      (LoadCSV calmEnv dbTwoChapters (some fileChapterOne)).committed.verses.filter
          (fun v => v.ChapterID = 2)
        = dbTwoChapters.verses.filter (fun v => v.ChapterID = 2) :=
  ⟨by decide,
   (LoadCSV_verse_count_consistent calmEnv dbTwoChapters (some fileChapterOne)
      (by decide) (by decide) (by decide) (by decide) (by decide)).1,
   ((LoadCSV_verse_count_consistent calmEnv dbTwoChapters (some fileChapterOne)
      (by decide) (by decide) (by decide) (by decide) (by decide)).2 2 (by decide)).2.1⟩

/-! ### Re-ingestion -/

theorem lastTexts_append_singleton (p : List Row) (r : Row) (v : Verse) :
    lastTexts (p ++ [r]) v = overwrite r (lastTexts p v) := by
  simp [lastTexts, List.foldl_append]

theorem lastTexts_cons (r : Row) (rows : List Row) (v : Verse) :
    lastTexts (r :: rows) v = lastTexts rows (overwrite r v) := rfl

theorem lastTexts_vkey (rows : List Row) (v : Verse) : vkey (lastTexts rows v) = vkey v := by
  induction rows generalizing v with
  | nil => rfl
  | cons r rows ih => rw [lastTexts_cons, ih, overwrite_vkey]

theorem lastTexts_ID (rows : List Row) (v : Verse) : (lastTexts rows v).ID = v.ID := by
  induction rows generalizing v with
  | nil => rfl
  | cons r rows ih => rw [lastTexts_cons, ih, overwrite_ID]

/-- A verse that carries the texts of row `r` under the key of `r` is what the
upsert of `r` makes of any verse with the same identifier and key. -/
theorem overwrite_restores (r : Row) (w x : Verse) (hk : hasKey r.chapterNum r.verseNum w = true)
    (hw : w = setTexts w r.sanskrit r.transliteration r.english r.hindi)
    (hid : x.ID = w.ID) (hxk : vkey x = vkey w) : overwrite r x = w := by
  have hkx : hasKey r.chapterNum r.verseNum x = true := by
    rw [hasKey_iff] at hk ⊢
    rw [hxk, hk]
  unfold overwrite
  rw [if_pos hkx, hw]
  simp only [vkey, Prod.mk.injEq] at hxk
  simp [setTexts, hid, hxk.1, hxk.2]

/-- After a pass every stored verse already carries the texts that the last
row with its key gives it. -/
theorem foldl_applyRow_lastTexts (env : Env) (rows : List Row) (st : TxState) :
    ∀ v ∈ (rows.foldl (applyRow env) st).tx.verses, lastTexts rows v = v := by
  induction rows using List.reverseRecOn with
  | nil => intro v _; rfl
  | append_singleton p r ih =>
    intro v1 hv1
    rw [List.foldl_append] at hv1
    simp only [List.foldl_cons, List.foldl_nil] at hv1
    rw [applyRow_tx] at hv1
    simp only at hv1
    rw [lastTexts_append_singleton]
    unfold upsertVerse at hv1
    by_cases hany : (p.foldl (applyRow env) st).tx.verses.any
        (hasKey r.chapterNum r.verseNum) = true
    · rw [if_pos hany] at hv1
      obtain ⟨v, hv, hov⟩ := List.mem_map.mp hv1
      by_cases hk : hasKey r.chapterNum r.verseNum v = true
      · have hw : v1 = setTexts v r.sanskrit r.transliteration r.english r.hindi := by
          rw [← hov]; unfold overwrite; rw [if_pos hk]
        apply overwrite_restores r v1 _
        · rw [hw]; exact hk
        · rw [hw]; rfl
        · exact lastTexts_ID p v1
        · exact lastTexts_vkey p v1
      · have hw : v1 = v := by
          rw [← hov]; unfold overwrite; rw [if_neg hk]
        subst hw
        rw [ih v1 hv]
        unfold overwrite
        rw [if_neg hk]
    · rw [if_neg hany] at hv1
      rcases List.mem_append.mp hv1 with hv | hv
      · rw [ih v1 hv]
        have hk : ¬ hasKey r.chapterNum r.verseNum v1 = true := by
          intro hk
          exact hany (List.any_eq_true.mpr ⟨v1, hv, hk⟩)
        unfold overwrite
        rw [if_neg hk]
      · rw [List.mem_singleton] at hv
        apply overwrite_restores r v1 _
        · rw [hv]; simp [hasKey]
        · rw [hv]; rfl
        · exact lastTexts_ID p v1
        · exact lastTexts_vkey p v1

/-- A pass over a table that already holds every row's key only overwrites. -/
theorem foldl_applyRow_verses_of_keys (env : Env) (rows : List Row) (st : TxState)
    (h : ∀ r ∈ rows, r.key ∈ st.tx.verses.map vkey) :
    (rows.foldl (applyRow env) st).tx.verses = st.tx.verses.map (lastTexts rows) := by
  induction rows generalizing st with
  | nil =>
    have hid : lastTexts [] = id := funext (fun _ => rfl)
    simp [hid]
  | cons r rows ih =>
    have hr := h r (List.mem_cons_self _ _)
    have hstep : (applyRow env st r).tx.verses = st.tx.verses.map (overwrite r) := by
      rw [applyRow_tx]
      simp only [upsertVerse]
      rw [if_pos ((any_hasKey_iff st.tx.verses r).mpr hr)]
    have hkeys : (applyRow env st r).tx.verses.map vkey = st.tx.verses.map vkey := by
      rw [hstep, List.map_map]
      apply List.map_congr_left
      intro v _
      exact overwrite_vkey r v
    simp only [List.foldl_cons]
    rw [ih (applyRow env st r) (by
      intro r1 hr1
      rw [hkeys]
      exact h r1 (List.mem_cons_of_mem _ hr1)), hstep, List.map_map]
    rfl

theorem addChapter_any (chs : List Chapter) (id : Int) :
    (addChapter chs id).any (fun ch => ch.ID = id) = true := by
  unfold addChapter
  split
  · assumption
  · simp

theorem addChapter_any_mono (chs : List Chapter) (id c : Int)
    (h : chs.any (fun ch => ch.ID = c) = true) :
    (addChapter chs id).any (fun ch => ch.ID = c) = true := by
  unfold addChapter
  split
  · exact h
  · rw [List.any_append, h]; rfl

theorem foldl_addChapter_any_mono (rows : List Row) (chs : List Chapter) (c : Int)
    (h : chs.any (fun ch => ch.ID = c) = true) :
    (rows.foldl (fun chs r => addChapter chs r.chapterNum) chs).any (fun ch => ch.ID = c)
      = true := by
  induction rows generalizing chs with
  | nil => exact h
  | cons r rows ih => exact ih _ (addChapter_any_mono chs r.chapterNum c h)

theorem foldl_addChapter_any (rows : List Row) (chs : List Chapter) (r : Row) (hr : r ∈ rows) :
    (rows.foldl (fun chs r => addChapter chs r.chapterNum) chs).any
      (fun ch => ch.ID = r.chapterNum) = true := by
  induction rows generalizing chs with
  | nil => cases hr
  | cons r1 rows ih =>
    simp only [List.foldl_cons]
    rcases List.mem_cons.mp hr with h | h
    · subst h
      exact foldl_addChapter_any_mono rows _ _ (addChapter_any chs r.chapterNum)
    · exact ih _ h

theorem foldl_addChapter_of_any (rows : List Row) (chs : List Chapter)
    (h : ∀ r ∈ rows, chs.any (fun ch => ch.ID = r.chapterNum) = true) :
    rows.foldl (fun chs r => addChapter chs r.chapterNum) chs = chs := by
  induction rows with
  | nil => rfl
  | cons r rows ih =>
    simp only [List.foldl_cons]
    have h1 : addChapter chs r.chapterNum = chs := by
      unfold addChapter
      rw [if_pos (h r (List.mem_cons_self _ _))]
    rw [h1]
    exact ih (fun r1 hr1 => h r1 (List.mem_cons_of_mem _ hr1))

theorem any_map_setCount (m : List (Int × Int)) (chs : List Chapter) (c : Int) :
    (chs.map (setCount m)).any (fun ch => ch.ID = c) = chs.any (fun ch => ch.ID = c) := by
  induction chs with
  | nil => rfl
  | cons ch chs ih => simp only [List.map_cons, List.any_cons, setCount_ID, ih]

/-- A second pass over the same rows, started from what the first pass
committed, arrives at the same rows. -/
theorem passState_twice (env1 env2 : Env) (db : DB) (rows : List Row) :
    (passState env2 (passState env1 db rows).tx rows).tx = (passState env1 db rows).tx := by
  rw [passState_tx env2, passState_tx env1]
  simp only
  have hchs : rows.foldl (fun chs r => addChapter chs r.chapterNum)
      ((rows.foldl (fun chs r => addChapter chs r.chapterNum) db.chapters).map
        (setCount (rows.foldl countRow [])))
      = (rows.foldl (fun chs r => addChapter chs r.chapterNum) db.chapters).map
        (setCount (rows.foldl countRow [])) := by
    apply foldl_addChapter_of_any
    intro r hr
    rw [any_map_setCount]
    exact foldl_addChapter_any rows db.chapters r hr
  have hvs : (rows.foldl (applyRow env2)
      ⟨⟨(rows.foldl (fun chs r => addChapter chs r.chapterNum) db.chapters).map
          (setCount (rows.foldl countRow [])),
        (rows.foldl (applyRow env1) ⟨db, [], 0, 0, []⟩).tx.verses⟩, [], 0, 0, []⟩).tx.verses
      = (rows.foldl (applyRow env1) ⟨db, [], 0, 0, []⟩).tx.verses := by
    rw [foldl_applyRow_verses_of_keys]
    · simp only
      conv_rhs => rw [← List.map_id (rows.foldl (applyRow env1) ⟨db, [], 0, 0, []⟩).tx.verses]
      apply List.map_congr_left
      intro v hv
      exact foldl_applyRow_lastTexts env1 rows _ v hv
    · intro r hr
      simp only
      rw [foldl_applyRow_keys, mem_foldl_addKey]
      exact Or.inr (List.mem_map.mpr ⟨r, hr, rfl⟩)
  rw [hchs, hvs, List.map_map]
  congr 1
  apply List.map_congr_left
  intro ch _
  exact setCount_idem _ ch

/-- C3 (idempotent re-ingestion).  Whatever the store and the source, if
`LoadCSV` returns nil, then a second call on the same source, in any
environment, leaves the committed chapters and verses exactly as the first
call left them: the same chapter rows with the same `verse_count`, the same
verse rows with the same identifiers, keys and texts, none added.  And where
the store raises no error the second call does return nil. -/
theorem LoadCSV_idempotent (env1 env2 : Env) (db : DB) (file : Option (List Line))
    (h1 : (LoadCSV env1 db file).ret = Return.nil) :
    (LoadCSV env2 (LoadCSV env1 db file).committed file).committed
        = (LoadCSV env1 db file).committed ∧
      (env2.Calm →
        (LoadCSV env2 (LoadCSV env1 db file).committed file).ret = Return.nil) := by
  obtain ⟨⟨lines, header, reads, hf, hr, hp⟩, hload⟩ := LoadCSV_nil env1 db file h1
  constructor
  · rcases LoadCSV_nil_or_unchanged env2 (LoadCSV env1 db file).committed file with h2 | h2
    · obtain ⟨_, hload2⟩ := LoadCSV_nil env2 _ file h2
      rw [hload2]
      simp only
      rw [hload]
      exact passState_twice env1 env2 db (sourceRows file)
    · exact h2
  · intro hcalm
    subst hf
    rw [LoadCSV_calm env2 _ lines header reads hcalm hr hp]

/-- C3 on a store with two chapters and a file with the three verses of
chapter 1; the second call draws other identifiers and walks the counter map
in another order, and commits the same rows. -/
theorem LoadCSV_idempotent_witness :
    (LoadCSV calmEnv dbTwoChapters (some fileChapterOne)).ret = Return.nil ∧
      (LoadCSV calmEnvW (LoadCSV calmEnv dbTwoChapters (some fileChapterOne)).committed
          (some fileChapterOne)).committed
        = ⟨[⟨1, "Chapter 1", "", "", "", 3⟩, ⟨2, "Chapter 2", "", "", "", 1⟩],
           [⟨"id-1-1", 1, 1, "S11", "T11", "E11", "H11"⟩,
            ⟨"id-1-2", 1, 2, "S12x", "T12x", "E12x", "H12x"⟩,
            ⟨"id-2-1", 2, 1, "S21", "T21", "E21", "H21"⟩,
            ⟨"u2", 1, 3, "S13", "T13", "E13", "H13"⟩]⟩ ∧
      (LoadCSV calmEnvW (LoadCSV calmEnv dbTwoChapters (some fileChapterOne)).committed
          (some fileChapterOne)).committed
        = (LoadCSV calmEnv dbTwoChapters (some fileChapterOne)).committed :=
  ⟨by decide, by decide,
   (LoadCSV_idempotent calmEnv calmEnvW dbTwoChapters (some fileChapterOne) (by decide)).1⟩

/-! ### Error returns inside the transaction -/

theorem runTx_tx_open_or (env : Env) (columnIndex : List (String × Nat))
    (reads : List (Except CsvError (List String))) (db : DB) :
    (runTx env columnIndex reads db).txOpen = true ∨
      (runTx env columnIndex reads db).ret = Return.nil ∨
      (runTx env columnIndex reads db).ret = Return.error LoadError.commitTx := by
  unfold runTx
  split
  · split
    · unfold commitTx
      split
      · exact Or.inr (Or.inr rfl)
      · exact Or.inr (Or.inl rfl)
    · exact Or.inl rfl
  · exact Or.inl rfl

/-- Whenever `LoadCSV` returns an error from inside the transaction, other
than a failed commit, the transaction is still open at the return. -/
theorem LoadCSV_error_leaves_tx_open (env : Env) (db : DB) (lines : List Line)
    (header : List String) (reads : List (Except CsvError (List String))) (e : LoadError)
    (hr : readAll 0 lines = Except.ok header :: reads) (hb : env.beginFails = false)
    (h : (LoadCSV env db (some lines)).ret = Return.error e) (hne : e ≠ LoadError.commitTx) :
    (LoadCSV env db (some lines)).txOpen = true := by
  have hl : LoadCSV env db (some lines) = runTx env (buildColumnIndex header) reads db := by
    unfold LoadCSV
    simp only [hr, hb, deferredRollback_none]
    rfl
  rw [hl] at h ⊢
  rcases runTx_tx_open_or env (buildColumnIndex header) reads db with h1 | h1 | h1
  · exact h1
  · rw [h1] at h; cases h
  · rw [h1] at h
    simp only [Return.error.injEq] at h
    exact absurd h.symm hne

/-! ### `GetVerse` -/

theorem scanVerse_found (verses : List Verse) (chapterID verseNumber : Int) (v : Verse)
    (hv : v ∈ verses) (hk : hasKey chapterID verseNumber v = true) :
    ∃ w ∈ verses, hasKey chapterID verseNumber w = true ∧
      scanVerse none verses chapterID verseNumber = Except.ok w := by
  unfold scanVerse
  cases hf : verses.find? (hasKey chapterID verseNumber) with
  | none =>
    rw [List.find?_eq_none] at hf
    exact absurd hk (hf v hv)
  | some w =>
    exact ⟨w, List.mem_of_find?_eq_some hf, List.find?_some hf, rfl⟩

theorem scanVerse_absent (verses : List Verse) (chapterID verseNumber : Int)
    (h : ∀ v ∈ verses, hasKey chapterID verseNumber v = false) :
    scanVerse none verses chapterID verseNumber = Except.error SqlError.ErrNoRows := by
  unfold scanVerse
  have hf : verses.find? (hasKey chapterID verseNumber) = none := by
    rw [List.find?_eq_none]
    intro v hv
    rw [h v hv]
    simp
  rw [hf]

/-- C11 (`GetVerse` and `ErrNotFound`).  For every chapter id and verse
number: when the store does not fail and a verse with that natural key is
stored, `GetVerse` returns a stored verse with the key and a nil error, and
under the uniqueness constraint it is that verse; when no verse has the key
the store reports `sql.ErrNoRows`; `GetVerse` returns the zero verse and an
error satisfying `errors.Is(err, ErrNotFound)` exactly when the store's error
satisfies `errors.Is(err, sql.ErrNoRows)`; every other store error comes back
wrapped as `get verse: ...`, which is not `ErrNotFound`; and the error is nil
only when a row was scanned. -/
theorem GetVerse_result (fault : Option SqlError) (verses : List Verse)
    (chapterID verseNumber : Int) :
    (fault = none → ∀ v ∈ verses, hasKey chapterID verseNumber v = true →
        (∃ w ∈ verses, hasKey chapterID verseNumber w = true ∧
          GetVerse fault verses chapterID verseNumber = (w, none)) ∧
        ((verses.map vkey).Nodup →
          GetVerse fault verses chapterID verseNumber = (v, none))) ∧
      (fault = none → (∀ v ∈ verses, hasKey chapterID verseNumber v = false) →
        scanVerse fault verses chapterID verseNumber = Except.error SqlError.ErrNoRows) ∧
      (((GetVerse fault verses chapterID verseNumber).1 = zeroVerse ∧
          ∃ e, (GetVerse fault verses chapterID verseNumber).2 = some e ∧
            e.isErrNotFound = true) ↔
        ∃ err, scanVerse fault verses chapterID verseNumber = Except.error err ∧
          err.isErrNoRows = true) ∧
      (∀ err, scanVerse fault verses chapterID verseNumber = Except.error err →
        err.isErrNoRows = false →
          GetVerse fault verses chapterID verseNumber
              = (zeroVerse, some (GoError.wrap "get verse" (GoError.sql err))) ∧
            (GoError.wrap "get verse" (GoError.sql err)).isErrNotFound = false) ∧
      ((GetVerse fault verses chapterID verseNumber).2 = none ↔
        ∃ v, scanVerse fault verses chapterID verseNumber = Except.ok v) := by
  refine ⟨?_, ?_, ?_, ?_, ?_⟩
  · intro hf v hv hk
    subst hf
    obtain ⟨w, hw, hkw, hs⟩ := scanVerse_found verses chapterID verseNumber v hv hk
    have hg : GetVerse none verses chapterID verseNumber = (w, none) := by
      unfold GetVerse
      rw [hs]
    refine ⟨⟨w, hw, hkw, hg⟩, ?_⟩
    intro hn
    have hkey : vkey w = vkey v := by
      rw [(hasKey_iff _ _ w).mp hkw, (hasKey_iff _ _ v).mp hk]
    rw [hg, List.inj_on_of_nodup_map hn hw hv hkey]
  · intro hf h
    subst hf
    exact scanVerse_absent verses chapterID verseNumber h
  · unfold GetVerse
    cases hs : scanVerse fault verses chapterID verseNumber with
    | ok v => simp
    | error err =>
      by_cases hn : err.isErrNoRows = true
      · simp [hn, GoError.isErrNotFound]
      · simp [hn, GoError.isErrNotFound]
  · intro err hs hn
    unfold GetVerse
    rw [hs]
    simp [hn, GoError.isErrNotFound]
  · unfold GetVerse
    cases hs : scanVerse fault verses chapterID verseNumber with
    | ok v => simp
    | error err =>
      by_cases hn : err.isErrNoRows = true
      · simp [hn]
      · simp [hn]

/-- C11 on the sample verses: verse (1, 2) is found; the store answering
`sql.ErrNoRows` for (1, 1), as in `TestGetVerse_NotFound`, and the absent key
(1, 9) both give `ErrNotFound`; a connection failure gives a wrapped error
that is not `ErrNotFound`. -/
theorem GetVerse_result_witness :
    GetVerse none sampleVerses 1 2 = (⟨"b", 1, 2, "", "", "abc", "h2"⟩, none) ∧
      GetVerse (some SqlError.ErrNoRows) [] 1 1 = (zeroVerse, some GoError.ErrNotFound) ∧
      GetVerse none sampleVerses 1 9 = (zeroVerse, some GoError.ErrNotFound) ∧
      (GetVerse (some (SqlError.failure "connection reset")) sampleVerses 1 2
          = (zeroVerse,
             some (GoError.wrap "get verse" (GoError.sql (SqlError.failure "connection reset")))) ∧
        (GoError.wrap "get verse"
          (GoError.sql (SqlError.failure "connection reset"))).isErrNotFound = false) :=
  ⟨((GetVerse_result none sampleVerses 1 2).1 rfl ⟨"b", 1, 2, "", "", "abc", "h2"⟩
      (by decide) (by decide)).2 (by decide),
   by decide, by decide,
   (GetVerse_result (some (SqlError.failure "connection reset")) sampleVerses 1 2).2.2.2.1
     (SqlError.failure "connection reset") (by decide) (by decide)⟩

end Gitartha
